import Mathlib

/-!
Shallow embedding of the openbag recorder/player core
(`src/include/openbag/buffer.hpp`, `recorder.hpp`, `player.hpp`,
`storage.hpp`, `proto_utils.hpp`) and proofs about the frozen claims.

The C++ code is concurrent; the mutex in `MessageBuffer` serialises every
mutation, so reachable buffer states are exactly the states produced by
sequences of complete operations.  The embedding below models each
operation as a pure state transformer.  A blocking `wait_for` is modelled
by an explicit outcome: in a quiescent (single-threaded) run the predicate
of the wait never becomes true, so `wait_for` times out; for the general
case `pushMessage` additionally takes the state observed when the wait
ends together with the flag `timedOut` telling whether `wait_for`
returned false.
-/

namespace Openbag

/-- Embedding of `openbag::Message` (common.hpp).  A fresh `std::shared_ptr`
is allocated per push and `sequence_number` is taken from the buffer's
monotone `m_totalMessages` counter, so within one buffer instance the
`sequence_number` field already identifies the object; structural equality
of this record therefore models pointer equality of `MessagePtr`. -/
structure Message where
  topic : String
  data : String
  timestamp : Int
  sequence_number : Nat
deriving DecidableEq, Repr

/-- Embedding of the state of `openbag::MessageBuffer` (buffer.hpp).
`topicQueues` models the `std::unordered_map<std::string, std::deque<MessagePtr>>`
as an association list with (by invariant) pairwise distinct keys. -/
structure MessageBuffer where
  messageQueue : List Message
  topicQueues : List (String × List Message)
  maxQueueSize : Nat
  running : Bool
  totalMessages : Nat
deriving DecidableEq, Repr

/-- The constructor `MessageBuffer(config)`: empty queues, `m_running(true)`,
`m_totalMessages(0)`, capacity from `config.buffer_size`. -/
def initBuffer (bufferSize : Nat) : MessageBuffer :=
  { messageQueue := [], topicQueues := [], maxQueueSize := bufferSize,
    running := true, totalMessages := 0 }

/-- Lookup a key in the topic map (models `m_topicQueues.find(topic)`). -/
def lookupT (T : List (String × List Message)) (t : String) : Option (List Message) :=
  match T with
  | [] => none
  | (k, q) :: rest => if k = t then some q else lookupT rest t

/-- The per-topic queue seen through `find` (absent key reads as empty). -/
def topicQueueOf (b : MessageBuffer) (t : String) : List Message :=
  (lookupT b.topicQueues t).getD []

/-- Models `m_topicQueues[topic].push_back(message)`: update the entry for
`t` if present, otherwise append a fresh singleton entry. -/
def topicPush (T : List (String × List Message)) (t : String) (m : Message) :
    List (String × List Message) :=
  match T with
  | [] => [(t, [m])]
  | (k, q) :: rest =>
      if k = t then (k, q ++ [m]) :: rest else (k, q) :: topicPush rest t m

/-- Models the topic-side removal in `PopMessages`:
`auto& q = m_topicQueues[topic]; if (!q.empty()) { q.pop_front(); if (q.empty()) erase; }`.
If the key is absent, `operator[]` creates an empty entry which then stays. -/
def topicPopHead (T : List (String × List Message)) (t : String) :
    List (String × List Message) :=
  match T with
  | [] => [(t, [])]
  | (k, q) :: rest =>
      if k = t then
        match q with
        | [] => (k, q) :: rest
        | _ :: qs => if qs.isEmpty then rest else (k, qs) :: rest
      else (k, q) :: topicPopHead rest t

/-- Models `m_topicQueues.erase(topic)` (at most one entry per key). -/
def topicErase (T : List (String × List Message)) (t : String) :
    List (String × List Message) :=
  match T with
  | [] => []
  | (k, q) :: rest => if k = t then rest else (k, q) :: topicErase rest t

/-- Writes back the in-place mutation of the deque referenced by
`it->second` in `PopMessagesByTopic`. -/
def topicUpdate (T : List (String × List Message)) (t : String) (q' : List Message) :
    List (String × List Message) :=
  match T with
  | [] => []
  | (k, q) :: rest => if k = t then (k, q') :: rest else (k, q) :: topicUpdate rest t q'

/-- The unguarded tail of `PushMessage` (buffer.hpp lines 81-95): build the
message with `sequence_number = m_totalMessages++`, append it to the main
queue and to `m_topicQueues[topic]`, return true. -/
def pushAppendCore (b : MessageBuffer) (topic data : String) (ts : Int) :
    MessageBuffer × Bool :=
  let m : Message :=
    { topic := topic, data := data, timestamp := ts, sequence_number := b.totalMessages }
  ({ b with messageQueue := b.messageQueue ++ [m],
            topicQueues := topicPush b.topicQueues topic m,
            totalMessages := b.totalMessages + 1 }, true)

/-- Embedding of `MessageBuffer::PushMessage`.  `b` is the state at entry.
When the queue is full the call waits on `m_notFull`; `bWake` is the state
observed when the wait ends and `timedOut` tells whether `wait_for`
returned false (predicate `size < max || !running` still false after
100 ms).  In a quiescent run `bWake = b` and `timedOut = true`. -/
def pushMessage (b bWake : MessageBuffer) (timedOut : Bool)
    (topic data : String) (ts : Int) : MessageBuffer × Bool :=
  if b.running = false then (b, false)
  else if b.maxQueueSize ≤ b.messageQueue.length then
    if timedOut then (bWake, false)
    else if bWake.running = false then (bWake, false)
    else pushAppendCore bWake topic data ts
  else pushAppendCore b topic data ts

/-- `PushMessage` in a quiescent interleaving: no other thread runs during
the wait, so a full queue stays full and the wait times out. -/
def pushMessageSeq (b : MessageBuffer) (topic data : String) (ts : Int) :
    MessageBuffer × Bool :=
  pushMessage b b true topic data ts

/-- The extraction loop of `PopMessages` (buffer.hpp lines 122-140), run
`n` times: take the queue head, remove the corresponding head of its
topic queue, append the message to the output vector. -/
def popLoop (b : MessageBuffer) (acc : List Message) : Nat → MessageBuffer × List Message
  | 0 => (b, acc)
  | n + 1 =>
      match b.messageQueue with
      | [] => (b, acc)
      | m :: rest =>
          popLoop { b with messageQueue := rest,
                           topicQueues := topicPopHead b.topicQueues m.topic }
                  (acc ++ [m]) n

/-- Embedding of `MessageBuffer::PopMessages`.  `msgs` is the caller's
vector (never cleared; drained records are appended).  In the sequential
model the wait on `m_notEmpty` changes nothing, so an empty queue stays
empty.  Returns the new state, the vector after the call, and the boolean
result `!messages.empty()` (or `false` at the early empty-queue return). -/
def popMessages (b : MessageBuffer) (msgs : List Message) (maxBatch : Nat) :
    MessageBuffer × List Message × Bool :=
  if b.messageQueue.isEmpty then (b, msgs, false)
  else
    let count := min maxBatch b.messageQueue.length
    let r := popLoop b msgs count
    (r.1, r.2, !r.2.isEmpty)

/-- Models the linear scan
`for (iter = Q.begin(); ...; ++iter) if (*iter == message) { Q.erase(iter); break; }`:
erase the first element equal to `m` (pointer equality, see `Message`). -/
def eraseFirst (Q : List Message) (m : Message) : List Message :=
  match Q with
  | [] => []
  | x :: xs => if x = m then xs else x :: eraseFirst xs m

/-- The extraction loop of `PopMessagesByTopic` (buffer.hpp lines 179-196),
run `n` times on the detached topic queue `tq`: pop the topic-queue head
and unlink the same record from the main queue. -/
def popByTopicLoop (Q tq acc : List Message) : Nat → List Message × List Message × List Message
  | 0 => (Q, tq, acc)
  | n + 1 =>
      match tq with
      | [] => (Q, [], acc)
      | m :: rest => popByTopicLoop (eraseFirst Q m) rest (acc ++ [m]) n

/-- Embedding of `MessageBuffer::PopMessagesByTopic`.  In the sequential
model the wait changes nothing: if the topic is absent the second `find`
is still `end`.  Note the early return `it == end || !m_running`: a
stopped buffer yields an empty batch even when the topic queue is
non-empty. -/
def popMessagesByTopic (b : MessageBuffer) (t : String) (maxBatch : Nat) :
    MessageBuffer × List Message :=
  match lookupT b.topicQueues t with
  | none => (b, [])
  | some tq =>
      if b.running = false then (b, [])
      else
        let count := min maxBatch tq.length
        let r := popByTopicLoop b.messageQueue tq [] count
        let T' := if r.2.1.isEmpty then topicErase b.topicQueues t
                  else topicUpdate b.topicQueues t r.2.1
        ({ b with messageQueue := r.1, topicQueues := T' }, r.2.2)

/-- `MessageBuffer::Clear`: clears both queues; note that `m_totalMessages`
is left untouched. -/
def clearBuffer (b : MessageBuffer) : MessageBuffer :=
  { b with messageQueue := [], topicQueues := [] }

/-- `MessageBuffer::Stop`: flips the running flag (and wakes waiters). -/
def stopBuffer (b : MessageBuffer) : MessageBuffer :=
  { b with running := false }

/-- `MessageBuffer::Start`. -/
def startBuffer (b : MessageBuffer) : MessageBuffer :=
  { b with running := true }

/-- `MessageBuffer::Size`. -/
def bufferSize (b : MessageBuffer) : Nat := b.messageQueue.length

/-- One complete serialised buffer operation, as named by the claims. -/
inductive BufOp where
  | push (t d : String) (ts : Int)
  | pop (maxBatch : Nat)
  | popByTopic (t : String) (maxBatch : Nat)
  | clear
  | stop
  | start
deriving DecidableEq, Repr

/-- Run a sequence of buffer operations, collecting the sequence numbers
the buffer assigned to the pushes that returned true (`acks`). -/
def runSeqs (b : MessageBuffer) (acks : List Nat) : List BufOp → MessageBuffer × List Nat
  | [] => (b, acks)
  | op :: rest =>
      match op with
      | .push t d ts =>
          let r := pushMessageSeq b t d ts
          runSeqs r.1 (if r.2 then acks ++ [b.totalMessages] else acks) rest
      | .pop k => runSeqs (popMessages b [] k).1 acks rest
      | .popByTopic t k => runSeqs (popMessagesByTopic b t k).1 acks rest
      | .clear => runSeqs (clearBuffer b) acks rest
      | .stop => runSeqs (stopBuffer b) acks rest
      | .start => runSeqs (startBuffer b) acks rest

/-- The buffer state after a sequence of operations. -/
def runOps (b : MessageBuffer) (ops : List BufOp) : MessageBuffer :=
  (runSeqs b [] ops).1

/-! ### Recorder (recorder.hpp) -/

/-- The effect of `Recorder::Start` on the buffer (recorder.hpp lines
113 and 122): `m_buffer->Clear()` followed by `m_buffer->Start()`.
`Start` also resets the recorder's own `m_totalMessages` counter to 0,
but that counter only feeds `GetTotalMessages`; the buffer's
`m_totalMessages`, which assigns `sequence_number`, is not reset. -/
def recorderStartOnBuffer (b : MessageBuffer) : MessageBuffer :=
  startBuffer (clearBuffer b)

/-- Events of a recorder run while `m_running` is true: a producer
callback pushing into the buffer, or one iteration of `WriteLoop`
popping a batch (its size is `GetWriteBatchSize()`, here arbitrary)
and handing it to `Storage::WriteMessageBatch`. -/
inductive RecEvent where
  | push (t d : String) (ts : Int)
  | drain (k : Nat)
deriving DecidableEq, Repr

/-- Run the recorder events over (buffer, records handed to the storage
writer).  `WriteLoop` clears `batch` before each pop, so the pop always
starts from an empty vector; whatever `PopMessages` drained is handed to
`WriteMessageBatch` (a failed write is still a hand-over). -/
def recRun : MessageBuffer × List Message → List RecEvent → MessageBuffer × List Message
  | s, [] => s
  | (b, w), .push t d ts :: rest => recRun ((pushMessageSeq b t d ts).1, w) rest
  | (b, w), .drain k :: rest =>
      let r := popMessages b [] k
      recRun (r.1, w ++ r.2.1) rest

/-- The messages acknowledged (return value true) by the pushes of an
event trace, in push order. -/
def ackedOf (b : MessageBuffer) : List RecEvent → List Message
  | [] => []
  | .push t d ts :: rest =>
      let r := pushMessageSeq b t d ts
      (if r.2 then
        [{ topic := t, data := d, timestamp := ts, sequence_number := b.totalMessages }]
       else []) ++ ackedOf r.1 rest
  | .drain k :: rest => ackedOf (popMessages b [] k).1 rest

/-- The `WriteLoop` tail after `Stop` sets `m_running = false` (recorder.hpp
lines 369-399): `while (buffer.Size() > 0)`, with batch size
`m_buffer->Size()`.  Fuel `|Q| + 1` is always enough: a pop with batch
size `|Q|` empties the queue. -/
def writeLoopStoppedAux (fuel : Nat) (b : MessageBuffer) (written : List Message) :
    MessageBuffer × List Message :=
  match fuel with
  | 0 => (b, written)
  | fuel + 1 =>
      if b.messageQueue = [] then (b, written)
      else
        let r := popMessages b [] b.messageQueue.length
        writeLoopStoppedAux fuel r.1 (written ++ r.2.1)

/-- The drain phase of `Recorder::Stop`: the writer thread keeps looping
until the buffer is empty (the buffer itself is stopped only afterwards,
so `PopMessages` is still called on a running buffer). -/
def writeLoopStopped (b : MessageBuffer) (written : List Message) :
    MessageBuffer × List Message :=
  writeLoopStoppedAux (b.messageQueue.length + 1) b written

/-! ### Player (player.hpp) -/

/-- One record yielded by the reader's message view, as seen by
`Player::PlayLoop`: whether `it->schema` is non-null and its encoding;
the mcap `logTime` (nanoseconds); the topic obtained from the channel
table (`none` models both a missing channel and an empty topic);
whether `m_publishers` has an entry for the topic; and what the bus
`Publish` call returns for this record.  The loop discards that return
value (player.hpp line 344), which is why no definition below reads
`publishOk`. -/
structure PlayRecord where
  hasSchema : Bool
  schemaEncoding : String
  logTime : Int
  channelTopic : Option String
  publisherExists : Bool
  publishOk : Bool
deriving DecidableEq, Repr

/-- The loop-carried state of `PlayLoop`. -/
structure PlayState where
  firstMessage : Bool
  lastTimestamp : Int
  playedMessages : Nat
deriving DecidableEq, Repr

/-- `PlayLoop` locals at entry (`lastTimestamp = 0`, `firstMessage = true`)
together with `m_playedMessages` reset to 0 by `Player::Start`. -/
def initPlayState : PlayState :=
  { firstMessage := true, lastTimestamp := 0, playedMessages := 0 }

/-- Embedding of `Player::SetPlaybackRate` (player.hpp lines 241-248):
`if (rate <= 0.0) rate = 1.0;`.  The `double` rate is modelled as a
rational. -/
def setPlaybackRate (rate : ℚ) : ℚ :=
  if rate ≤ 0 then 1 else rate

/-- The inter-record sleep of one `PlayLoop` iteration (player.hpp lines
311-319), in milliseconds: guarded by `!firstMessage && rate > 0`, and by
`deltaTime > 0`; the slept amount is
`static_cast<int64_t>(deltaTime / 1000000.0 / rate)`, i.e. the floor for
a positive value. -/
def interDelayMs (rate : ℚ) (firstMessage : Bool) (lastTs curTs : Int) : Int :=
  if firstMessage = false ∧ 0 < rate ∧ 0 < curTs - lastTs then
    ⌊((curTs - lastTs : Int) : ℚ) / 1000000 / rate⌋
  else 0

/-- One iteration of `PlayLoop` for one record, at the playback rate read
from `m_config.playback_rate` in this iteration.  Returns the new state
and the milliseconds slept before publishing.  Order follows the source:
skip non-protobuf records before the timing code; update
`firstMessage`/`lastTimestamp` before the topic lookup; increment
`m_playedMessages` after `Publish` regardless of its return value. -/
def playStep (rate : ℚ) (s : PlayState) (r : PlayRecord) : PlayState × Int :=
  if ¬ (r.hasSchema = true ∧ r.schemaEncoding = "protobuf") then (s, 0)
  else
    let delay := interDelayMs rate s.firstMessage s.lastTimestamp r.logTime
    let s1 : PlayState := { s with firstMessage := false, lastTimestamp := r.logTime }
    match r.channelTopic with
    | none => (s1, delay)
    | some _ =>
        if r.publisherExists then
          ({ s1 with playedMessages := s1.playedMessages + 1 }, delay)
        else (s1, delay)

/-- The streaming loop of `PlayLoop` over a record list.  `rates i` is the
value of `m_config.playback_rate` read during iteration `i` (the field is
re-read on every iteration, so a `SetPlaybackRate` call takes effect on
the next inter-record delay).  Returns the final state and the per-record
sleeps. -/
def playLoopAux (rates : Nat → ℚ) (i : Nat) (s : PlayState) :
    List PlayRecord → PlayState × List Int
  | [] => (s, [])
  | r :: rest =>
      let p := playStep (rates i) s r
      let q := playLoopAux rates (i + 1) p.1 rest
      (q.1, p.2 :: q.2)

/-- One pass of `PlayLoop` from the freshly started player. -/
def playLoop (rates : Nat → ℚ) (records : List PlayRecord) : PlayState × List Int :=
  playLoopAux rates 0 initPlayState records

/-- A record that reaches the `Publish` call: protobuf-encoded, with a
resolvable non-empty topic that has a publisher. -/
def reachesPublish (r : PlayRecord) : Bool :=
  r.hasSchema && (r.schemaEncoding == "protobuf") && r.channelTopic.isSome && r.publisherExists

/-! ### Storage (storage.hpp), with the MCAP writer modelled from the spec -/

/-- A schema record of one log file. -/
structure SchemaRec where
  id : Nat
  name : String
  encoding : String
deriving DecidableEq, Repr

/-- A channel record of one log file. -/
structure ChannelRec where
  id : Nat
  topic : String
  messageEncoding : String
  schemaId : Nat
  messageType : String
deriving DecidableEq, Repr

/-- A message record of one log file
(`{channelId, sequence, logTime, publishTime, dataSize}`). -/
structure MessageRec where
  channelId : Nat
  sequence : Nat
  logTime : Int
  publishTime : Int
  dataSize : Nat
deriving DecidableEq, Repr

/-- One output container file with its registration tables. -/
structure LogFile where
  filename : String
  isOpen : Bool
  schemas : List SchemaRec
  channels : List ChannelRec
  messages : List MessageRec
deriving DecidableEq, Repr

/-- Modelled from the spec: the MCAP writer (`mcap::McapWriter`) is outside
src/; spec §4.3 gives `Open(path, options) → Status` and says only the
current file is open. -/
def writerOpen (files : List LogFile) (fname : String) : List LogFile :=
  files ++ [{ filename := fname, isOpen := true, schemas := [], channels := [], messages := [] }]

/-- Modelled from the spec: `Close()` closes the (single) open file. -/
def writerClose (files : List LogFile) : List LogFile :=
  files.map fun f => { f with isOpen := false }

/-- Modelled from the spec: `AddSchema(name, encoding, bytes) → id`, with
`schema_id = registration order` inside the open file (spec §4.3).  The
schema record is added to the first open file; with no open file the call
is a no-op returning id 0. -/
def writerAddSchema (files : List LogFile) (name encoding : String) :
    List LogFile × Nat :=
  match files with
  | [] => ([], 0)
  | f :: rest =>
      if f.isOpen then
        let sid := f.schemas.length + 1
        ({ f with schemas := f.schemas ++ [{ id := sid, name := name, encoding := encoding }] } :: rest, sid)
      else
        let r := writerAddSchema rest name encoding
        (f :: r.1, r.2)

/-- Modelled from the spec: `AddChannel(topic, encoding, schema_id,
metadata) → id`, ids assigned in registration order inside the open file. -/
def writerAddChannel (files : List LogFile) (topic encoding : String)
    (schemaId : Nat) (messageType : String) : List LogFile × Nat :=
  match files with
  | [] => ([], 0)
  | f :: rest =>
      if f.isOpen then
        let cid := f.channels.length + 1
        ({ f with channels := f.channels ++
            [{ id := cid, topic := topic, messageEncoding := encoding,
               schemaId := schemaId, messageType := messageType }] } :: rest, cid)
      else
        let r := writerAddChannel rest topic encoding schemaId messageType
        (f :: r.1, r.2)

/-- Modelled from the spec: `Write(channel_id, sequence, log_time_ns,
publish_time_ns, bytes) → Status`; succeeds when a file is open. -/
def writerWrite (files : List LogFile) (m : MessageRec) : List LogFile × Bool :=
  match files with
  | [] => ([], false)
  | f :: rest =>
      if f.isOpen then ({ f with messages := f.messages ++ [m] } :: rest, true)
      else
        let r := writerWrite rest m
        (f :: r.1, r.2)

/-- Embedding of `openbag::FileInfo` (common.hpp); the source field
`prefix` is named `filePrefix` here. -/
structure FileInfoM where
  is_open : Bool
  file_size : Nat
  filePrefix : String
  extension : String
  filename : String
  output_path : String
deriving DecidableEq, Repr

/-- The fields of `StorageConfig` that `Storage` reads. -/
structure StorageCfg where
  write_batch_size : Nat
  max_file_size : Nat
  split_by_size : Bool
deriving DecidableEq, Repr

/-- Embedding of `openbag::TopicInfo` (common.hpp). -/
structure TopicInfoM where
  topic_name : String
  proto_type : String
  proto_file : String
  schema_id : Nat
  channel_id : Nat
deriving DecidableEq, Repr

/-- Association-list update-or-insert, modelling
`m_topicInfos[topicInfo.topic_name] = topicInfo`. -/
def topicInfosSet (L : List (String × TopicInfoM)) (t : String) (info : TopicInfoM) :
    List (String × TopicInfoM) :=
  match L with
  | [] => [(t, info)]
  | (k, v) :: rest =>
      if k = t then (k, info) :: rest else (k, v) :: topicInfosSet rest t info

/-- Association-list lookup for `m_topicInfos.find(topic)`. -/
def topicInfosLookup (L : List (String × TopicInfoM)) (t : String) : Option TopicInfoM :=
  match L with
  | [] => none
  | (k, v) :: rest => if k = t then some v else topicInfosLookup rest t

/-- Embedding of the state of `openbag::Storage`.  `pool` models the
importer's descriptor pool (`(*m_importer)->pool()`): the set of
fully-qualified type names `FindMessageTypeByName` resolves.  Importing
only ever adds to the pool. -/
structure StorageState where
  fileInfo : FileInfoM
  cfg : StorageCfg
  writer : List LogFile
  topicInfos : List (String × TopicInfoM)
  pool : List String
deriving DecidableEq, Repr

/-- A fresh `Storage` (no file open, no writer, no registrations). -/
def storageInit (cfg : StorageCfg) (pool : List String) : StorageState :=
  { fileInfo := { is_open := false, file_size := 0, filePrefix := "", extension := "",
                  filename := "", output_path := "" },
    cfg := cfg, writer := [], topicInfos := [], pool := pool }

/-- Embedding of `Storage::GenFilename` (storage.hpp lines 47-64).
`timeStr` is the value `GetTimeString("%Y_%m_%d-%H_%M_%S")` returns at
the call.  With an empty `output_path` the fixed, timestamp-free path
`./openbags/<prefix>.<extension>` is used; otherwise a trailing slash is
ensured and `GenerateUniqueFilename` produces
`<prefix>_<timeStr>.<extension>`. -/
def genFilename (fi : FileInfoM) (timeStr : String) : FileInfoM :=
  if fi.output_path = "" then
    { fi with filename := "./openbags/" ++ fi.filePrefix ++ "." ++ fi.extension }
  else
    let path := if fi.output_path.back = '/' then fi.output_path else fi.output_path ++ "/"
    { fi with output_path := path,
              filename := path ++ fi.filePrefix ++ "_" ++ timeStr ++ "." ++ fi.extension }

/-- Embedding of `Storage::Open` (storage.hpp lines 94-129): refuse when a
file is already open; generate the filename, open the writer, reset
`file_size`, clear `m_topicInfos`. -/
def storageOpen (st : StorageState) (fi : FileInfoM) (timeStr : String) :
    StorageState × Bool :=
  if st.fileInfo.is_open then (st, false)
  else
    let fi1 := genFilename fi timeStr
    ({ st with writer := writerOpen st.writer fi1.filename,
               fileInfo := { fi1 with is_open := true, file_size := 0 },
               topicInfos := [] }, true)

/-- Embedding of `Storage::RegisterTopicImpl` (storage.hpp lines 282-331):
resolve the type in the pool, build and serialise the descriptor set
(modelled as always serialisable), add the schema and the channel through
the writer — whose `addSchema`/`addChannel` assign the ids that the code
then reads back from `schema.id`/`channel.id` — and store the updated
`TopicInfo`. -/
def registerTopicImpl (st : StorageState) (info : TopicInfoM) : StorageState × Bool :=
  if info.proto_type ∈ st.pool then
    let r1 := writerAddSchema st.writer info.proto_type "protobuf"
    let r2 := writerAddChannel r1.1 info.topic_name "protobuf" r1.2 info.proto_type
    let info' := { info with schema_id := r1.2, channel_id := r2.2 }
    ({ st with writer := r2.1,
               topicInfos := topicInfosSet st.topicInfos info.topic_name info' }, true)
  else (st, false)

/-- The per-record overhead added to `m_fileInfo.file_size` in
`WriteSingleMessage`: `sizeof(channelId) + sizeof(sequence) +
sizeof(logTime) + sizeof(publishTime) + sizeof(dataSize)` =
2 + 4 + 8 + 8 + 8. -/
def messageOverheadBytes : Nat := 30

/-- Embedding of `Storage::WriteSingleMessage` (storage.hpp lines
333-371): look up the channel id for the topic, write the mcap message
(`logTime = publishTime = timestamp * 1000`), update the estimated file
size. -/
def writeSingleMessage (st : StorageState) (m : Message) : StorageState × Bool :=
  match topicInfosLookup st.topicInfos m.topic with
  | none => (st, false)
  | some info =>
      let mrec : MessageRec :=
        { channelId := info.channel_id, sequence := m.sequence_number,
          logTime := m.timestamp * 1000, publishTime := m.timestamp * 1000,
          dataSize := m.data.length }
      let r := writerWrite st.writer mrec
      if r.2 then
        ({ st with writer := r.1,
                   fileInfo := { st.fileInfo with
                     file_size := st.fileInfo.file_size + m.data.length + messageOverheadBytes } },
         true)
      else (st, false)

/-- Embedding of `Storage::TrySplitFileIfNeeded` (storage.hpp lines
373-404): when `split_by_size` is set and `file_size >= max_file_size`,
close the writer, regenerate the filename from the current `m_fileInfo`
(with the wall-clock `timeStr`), open the new file with the same options,
reset the size, and re-run `RegisterTopicImpl` for every entry of
`m_topicInfos` (each iteration overwrites only its own key, so folding
over the entry list is the map iteration). -/
def trySplitFileIfNeeded (st : StorageState) (timeStr : String) : StorageState :=
  if st.cfg.split_by_size = true ∧ st.cfg.max_file_size ≤ st.fileInfo.file_size then
    let fi1 := genFilename st.fileInfo timeStr
    let st1 := { st with writer := writerOpen (writerClose st.writer) fi1.filename,
                         fileInfo := { fi1 with file_size := 0, is_open := true } }
    st.topicInfos.foldl (fun acc p => (registerTopicImpl acc p.2).1) st1
  else st

/-- Embedding of `Storage::WriteMessageBatch` (storage.hpp lines 222-245):
refuse when closed or the batch is empty; write each record (best effort,
conjoining the per-record results); then try the size-based split. -/
def writeMessageBatch (st : StorageState) (msgs : List Message) (timeStr : String) :
    StorageState × Bool :=
  if st.fileInfo.is_open = false ∨ msgs.isEmpty then (st, false)
  else
    let r := msgs.foldl
      (fun (acc : StorageState × Bool) m =>
        let w := writeSingleMessage acc.1 m
        (w.1, acc.2 && w.2)) (st, true)
    (trySplitFileIfNeeded r.1 timeStr, r.2)

/-- The open files of a writer state. -/
def openFiles (files : List LogFile) : List LogFile :=
  files.filter fun f => f.isOpen

/-! ### Descriptor transitive closure (proto_utils.hpp) -/

/-- A protobuf file descriptor as `BuildFileDescriptorSet` consumes it:
its name and its direct dependencies (`dependency(i)`), given by name —
in the descriptor pool the file name is the stable identity. -/
structure FileDesc where
  name : String
  deps : List String
deriving DecidableEq, Repr

/-- The descriptor pool: resolve a file name to its descriptor. -/
def lookupFile (pool : List FileDesc) (n : String) : Option FileDesc :=
  match pool with
  | [] => none
  | fd :: rest => if fd.name = n then some fd else lookupFile rest n

/-- The inner dependency walk of `BuildFileDescriptorSet` (proto_utils.hpp
lines 124-132): for each dependency name, `seen.insert(name).second`
tells whether it is new; new names are appended to `seen` and collected
for the pending queue. -/
def newDeps (deps seen : List String) : List String :=
  match deps with
  | [] => []
  | d :: ds => if d ∈ seen then newDeps ds seen else d :: newDeps ds (seen ++ [d])

/-- The BFS loop of `BuildFileDescriptorSet` (proto_utils.hpp lines
115-133), with explicit fuel; `none` models a run that would need more
iterations than the fuel allows (or an unresolvable file, which the
pool's closedness rules out).  The output collects, in pop order, the
names of the files whose descriptor proto is `CopyTo`-ed into the set. -/
def bfsAux (pool : List FileDesc) : Nat → List String → List String → List String →
    Option (List String)
  | _, [], _, out => some out
  | 0, _ :: _, _, _ => none
  | fuel + 1, f :: rest, seen, out =>
      match lookupFile pool f with
      | none => none
      | some fd =>
          bfsAux pool fuel (rest ++ newDeps fd.deps seen) (seen ++ newDeps fd.deps seen)
            (out ++ [f])

/-- Embedding of `BuildFileDescriptorSet` (proto_utils.hpp lines 102-136).
`top` is `toplevelDescriptor->file()->name()` for a non-null descriptor,
`none` for `nullptr` (which returns the empty set).  The queue starts
with the root file, already marked seen.  `pool.length` iterations always
suffice (proved below). -/
def buildFileDescriptorSet (pool : List FileDesc) (top : Option String) :
    Option (List String) :=
  match top with
  | none => some []
  | some rootFile => bfsAux pool pool.length [rootFile] [rootFile] []

/-- Reachability in the dependency graph: the root file, plus everything
reachable through `dependency` edges. -/
inductive ReachesFile (pool : List FileDesc) (root : String) : String → Prop
  | refl : ReachesFile pool root root
  | step {a b : String} {fd : FileDesc} :
      ReachesFile pool root a → lookupFile pool a = some fd → b ∈ fd.deps →
      ReachesFile pool root b

/-- A concrete two-record protobuf stream used to instantiate the
playback-rate theorem: log times 1 s and 3 s (nanoseconds). -/
def demoPlayRecords : List PlayRecord :=
  [{ hasSchema := true, schemaEncoding := "protobuf", logTime := 1000000000,
     channelTopic := some "t", publisherExists := true, publishOk := true },
   { hasSchema := true, schemaEncoding := "protobuf", logTime := 3000000000,
     channelTopic := some "t", publisherExists := true, publishOk := true }]

/-- A concrete message used to instantiate buffer theorems. -/
def demoMsgA : Message :=
  { topic := "a", data := "x", timestamp := 1, sequence_number := 0 }

/-- A small storage configuration (rotation after 5 bytes). -/
def demoStorageCfg : StorageCfg :=
  { write_batch_size := 10, max_file_size := 5, split_by_size := true }

/-- A `FileInfo` with an empty output path, as `Recorder::Start` would
build it from a config whose `output_path` is the empty string. -/
def demoFileInfoEmptyPath : FileInfoM :=
  { is_open := false, file_size := 0, filePrefix := "openbag", extension := "mcap",
    filename := "", output_path := "" }

/-- A registered topic bound to the proto type `pkg.Msg`. -/
def demoTopicInfo : TopicInfoM :=
  { topic_name := "topic", proto_type := "pkg.Msg", proto_file := "m.proto",
    schema_id := 0, channel_id := 0 }

/-- A storage opened on the empty output path with one registered topic. -/
def demoStorageEmptyPath : StorageState :=
  (registerTopicImpl
    (storageOpen (storageInit demoStorageCfg ["pkg.Msg"]) demoFileInfoEmptyPath "t1").1
    demoTopicInfo).1

/-- A message for the registered demo topic; 5 payload bytes plus the
30-byte record overhead exceed `max_file_size`, forcing a rotation. -/
def demoStorageMsg : Message :=
  { topic := "topic", data := "hello", timestamp := 1, sequence_number := 0 }

/-- A `FileInfo` with a non-empty output path. -/
def demoFileInfoOutPath : FileInfoM :=
  { is_open := false, file_size := 0, filePrefix := "openbag", extension := "mcap",
    filename := "", output_path := "./out" }

/-- A storage opened under `./out` with one registered topic and one
written message, so that the estimated size exceeds `max_file_size`. -/
def demoStorageOutPath : StorageState :=
  (writeSingleMessage
    (registerTopicImpl
      (storageOpen (storageInit demoStorageCfg ["pkg.Msg"]) demoFileInfoOutPath "t1").1
      demoTopicInfo).1
    demoStorageMsg).1

/-- The strengthened buffer invariant: topic keys are pairwise distinct;
every topic entry is exactly the topic's subsequence of the main queue
and is non-empty; every queued record's topic has an entry; sequence
numbers are below the counter and strictly increase along the queue. -/
def BufInv (b : MessageBuffer) : Prop :=
  (b.topicQueues.map Prod.fst).Nodup ∧
  (∀ p ∈ b.topicQueues,
      p.2 = b.messageQueue.filter (fun m => m.topic == p.1) ∧ p.2 ≠ []) ∧
  (∀ m ∈ b.messageQueue, m.topic ∈ b.topicQueues.map Prod.fst) ∧
  (∀ m ∈ b.messageQueue, m.sequence_number < b.totalMessages) ∧
  b.messageQueue.Pairwise (fun x y => x.sequence_number < y.sequence_number)

/-! ## Lemmas and claim theorems -/

theorem lookupT_mem {T : List (String × List Message)} {t : String} {q : List Message}
    (h : lookupT T t = some q) : (t, q) ∈ T := by
  induction T with
  | nil => simp [lookupT] at h
  | cons p rest ih =>
    by_cases hk : p.1 = t
    · rw [lookupT, if_pos hk] at h
      obtain ⟨k, v⟩ := p
      have hv : v = q := Option.some_injective _ h
      simp only at hk
      rw [← hk, ← hv]
      exact List.mem_cons_self _ _
    · rw [lookupT, if_neg hk] at h
      exact List.mem_cons_of_mem _ (ih h)

theorem mem_keys_lookupT {T : List (String × List Message)} {t : String}
    (h : t ∈ T.map Prod.fst) : ∃ q, lookupT T t = some q := by
  induction T with
  | nil => simp at h
  | cons p rest ih =>
    by_cases hk : p.1 = t
    · exact ⟨p.2, by rw [lookupT, if_pos hk]⟩
    · rw [List.map_cons, List.mem_cons] at h
      rcases h with h | h

      · exact absurd h.symm hk
      · obtain ⟨q, hq⟩ := ih h
        exact ⟨q, by rw [lookupT, if_neg hk]; exact hq⟩

theorem mem_lookupT {T : List (String × List Message)} {t : String} {q : List Message}
    (hnd : (T.map Prod.fst).Nodup) (h : (t, q) ∈ T) : lookupT T t = some q := by
  induction T with
  | nil => simp at h
  | cons p rest ih =>
    rw [List.map_cons, List.nodup_cons] at hnd
    rcases List.mem_cons.mp h with h | h
    · rw [← h, lookupT, if_pos rfl]
    · have hk : p.1 ≠ t := by
        intro he
        exact hnd.1 (he ▸ (List.mem_map.mpr ⟨(t, q), h, rfl⟩))
      rw [lookupT, if_neg hk]
      exact ih hnd.2 h

theorem topicPush_keys (T : List (String × List Message)) (t : String) (m : Message) :
    (topicPush T t m).map Prod.fst =
      if t ∈ T.map Prod.fst then T.map Prod.fst else T.map Prod.fst ++ [t] := by
  induction T with
  | nil => simp [topicPush]
  | cons p rest ih =>
    by_cases hk : p.1 = t
    · simp [topicPush, hk]
    · by_cases ht : t ∈ rest.map Prod.fst
      · simp [topicPush, hk, ih, ht, Ne.symm hk]
      · simp [topicPush, hk, ih, ht, Ne.symm hk]

theorem topicPush_entries {T : List (String × List Message)} {t : String} {m : Message}
    (hnd : (T.map Prod.fst).Nodup) :
    ∀ p ∈ topicPush T t m,
      (p.1 ≠ t ∧ p ∈ T) ∨
      (∃ q, lookupT T t = some q ∧ p = (t, q ++ [m])) ∨
      (lookupT T t = none ∧ p = (t, [m])) := by
  induction T with
  | nil =>
    intro p hp
    simp [topicPush] at hp
    exact Or.inr (Or.inr ⟨rfl, hp⟩)
  | cons e rest ih =>
    rw [List.map_cons, List.nodup_cons] at hnd
    intro p hp
    by_cases hk : e.1 = t
    · rw [topicPush, if_pos hk] at hp
      rcases List.mem_cons.mp hp with h | h
      · exact Or.inr (Or.inl ⟨e.2, by rw [lookupT, if_pos hk], by rw [h, hk]⟩)
      · have hpt : p.1 ∈ rest.map Prod.fst := List.mem_map.mpr ⟨p, h, rfl⟩
        have : p.1 ≠ t := by
          intro he
          exact hnd.1 ((hk.trans he.symm) ▸ hpt)
        exact Or.inl ⟨this, List.mem_cons_of_mem _ h⟩
    · rw [topicPush, if_neg hk] at hp
      rcases List.mem_cons.mp hp with h | h
      · exact Or.inl ⟨by rw [h]; exact hk, h ▸ List.mem_cons_self _ _⟩
      · rcases ih hnd.2 p h with h1 | h1 | h1
        · exact Or.inl ⟨h1.1, List.mem_cons_of_mem _ h1.2⟩
        · obtain ⟨q, hq1, hq2⟩ := h1
          exact Or.inr (Or.inl ⟨q, by rw [lookupT, if_neg hk]; exact hq1, hq2⟩)
        · exact Or.inr (Or.inr ⟨by rw [lookupT, if_neg hk]; exact h1.1, h1.2⟩)

theorem topicErase_keys (T : List (String × List Message)) (t : String) :
    (topicErase T t).map Prod.fst = (T.map Prod.fst).erase t := by
  induction T with
  | nil => simp [topicErase]
  | cons p rest ih =>
    by_cases hk : p.1 = t
    · simp [topicErase, hk, List.erase_cons_head]
    · simp only [topicErase, if_neg hk, List.map_cons]
      rw [List.erase_cons_tail, ih]
      simp [hk]

theorem topicErase_mem {T : List (String × List Message)} {t : String}
    (hnd : (T.map Prod.fst).Nodup) :
    ∀ p ∈ topicErase T t, p ∈ T ∧ p.1 ≠ t := by
  induction T with
  | nil => intro p hp; simp [topicErase] at hp
  | cons e rest ih =>
    rw [List.map_cons, List.nodup_cons] at hnd
    intro p hp
    by_cases hk : e.1 = t
    · rw [topicErase, if_pos hk] at hp
      refine ⟨List.mem_cons_of_mem _ hp, ?_⟩
      intro he
      exact hnd.1 ((hk.trans he.symm) ▸ List.mem_map.mpr ⟨p, hp, rfl⟩)
    · rw [topicErase, if_neg hk] at hp
      rcases List.mem_cons.mp hp with h | h
      · exact ⟨h ▸ List.mem_cons_self _ _, by rw [h]; exact hk⟩
      · obtain ⟨h1, h2⟩ := ih hnd.2 p h
        exact ⟨List.mem_cons_of_mem _ h1, h2⟩

theorem topicUpdate_keys (T : List (String × List Message)) (t : String) (q' : List Message) :
    (topicUpdate T t q').map Prod.fst = T.map Prod.fst := by
  induction T with
  | nil => simp [topicUpdate]
  | cons p rest ih =>
    by_cases hk : p.1 = t <;> simp [topicUpdate, hk, ih]

theorem topicUpdate_mem {T : List (String × List Message)} {t : String} {q' : List Message}
    (hnd : (T.map Prod.fst).Nodup) :
    ∀ p ∈ topicUpdate T t q', (p.1 ≠ t ∧ p ∈ T) ∨ p = (t, q') := by
  induction T with
  | nil => intro p hp; simp [topicUpdate] at hp
  | cons e rest ih =>
    rw [List.map_cons, List.nodup_cons] at hnd
    intro p hp
    by_cases hk : e.1 = t
    · rw [topicUpdate, if_pos hk] at hp
      rcases List.mem_cons.mp hp with h | h
      · exact Or.inr (by rw [h, hk])
      · have hpt : p.1 ∈ rest.map Prod.fst := List.mem_map.mpr ⟨p, h, rfl⟩
        refine Or.inl ⟨?_, List.mem_cons_of_mem _ h⟩
        intro he
        exact hnd.1 ((hk.trans he.symm) ▸ hpt)
    · rw [topicUpdate, if_neg hk] at hp
      rcases List.mem_cons.mp hp with h | h
      · exact Or.inl ⟨by rw [h]; exact hk, h ▸ List.mem_cons_self _ _⟩
      · rcases ih hnd.2 p h with h1 | h1
        · exact Or.inl ⟨h1.1, List.mem_cons_of_mem _ h1.2⟩
        · exact Or.inr h1

theorem topicPopHead_eq {T : List (String × List Message)} {t : String}
    {x : Message} {xs : List Message}
    (hnd : (T.map Prod.fst).Nodup) (hin : (t, x :: xs) ∈ T) :
    topicPopHead T t = if xs.isEmpty then topicErase T t else topicUpdate T t xs := by
  induction T with
  | nil => simp at hin
  | cons e rest ih =>
    rw [List.map_cons, List.nodup_cons] at hnd
    by_cases hk : e.1 = t
    · have he : e = (t, x :: xs) := by
        rcases List.mem_cons.mp hin with h | h
        · exact h.symm
        · exfalso
          apply hnd.1
          rw [hk]
          exact List.mem_map.mpr ⟨(t, x :: xs), h, rfl⟩
      rw [he]
      by_cases hxs : xs = []
      · simp [topicPopHead, topicErase, topicUpdate, hxs]
      · have : xs.isEmpty = false := by simpa [List.isEmpty_iff] using hxs
        simp [topicPopHead, topicErase, topicUpdate, this]
    · have hin' : (t, x :: xs) ∈ rest := by
        rcases List.mem_cons.mp hin with h | h
        · exact absurd (congrArg Prod.fst h.symm) hk
        · exact h
      have := ih hnd.2 hin'
      by_cases hxs : xs.isEmpty
      · simp only [topicPopHead, if_neg hk, topicErase, topicUpdate]
        rw [this]
        simp [hxs]
      · simp only [topicPopHead, if_neg hk, topicErase, topicUpdate]
        rw [this]
        simp [hxs]

theorem eraseFirst_sublist (Q : List Message) (m : Message) :
    (eraseFirst Q m).Sublist Q := by
  induction Q with
  | nil => simp [eraseFirst]
  | cons x xs ih =>
    by_cases hx : x = m
    · rw [eraseFirst, if_pos hx]
      exact List.Sublist.cons x (List.Sublist.refl xs)
    · rw [eraseFirst, if_neg hx]
      exact List.Sublist.cons₂ x ih

theorem eraseFirst_length {Q : List Message} {m : Message} (h : m ∈ Q) :
    (eraseFirst Q m).length + 1 = Q.length := by
  induction Q with
  | nil => simp at h
  | cons x xs ih =>
    by_cases hx : x = m
    · rw [eraseFirst, if_pos hx]; simp
    · have hm : m ∈ xs := by
        rcases List.mem_cons.mp h with h1 | h1
        · exact absurd h1.symm hx
        · exact h1
      rw [eraseFirst, if_neg hx]
      simp [← ih hm]

theorem eraseFirst_filter_pos {Q : List Message} {f : Message → Bool} {m : Message}
    {l : List Message} (h : Q.filter f = m :: l) :
    (eraseFirst Q m).filter f = l := by
  induction Q with
  | nil => simp at h
  | cons x xs ih =>
    by_cases hx : x = m
    · rw [eraseFirst, if_pos hx]
      by_cases hf : f x = true
      · rw [List.filter_cons_of_pos hf] at h
        exact ((List.cons.injEq _ _ _ _).mp h).2
      · rw [List.filter_cons_of_neg (by simpa using hf)] at h
        have : f m = true := List.of_mem_filter (h ▸ List.mem_cons_self m l)
        exact absurd (hx ▸ this) hf
    · rw [eraseFirst, if_neg hx]
      by_cases hf : f x = true
      · rw [List.filter_cons_of_pos hf] at h ⊢
        have hx2 : x = m := ((List.cons.injEq _ _ _ _).mp h).1
        exact absurd hx2 hx
      · rw [List.filter_cons_of_neg (by simpa using hf)] at h ⊢
        exact ih h

theorem eraseFirst_filter_neg {Q : List Message} {f : Message → Bool} {m : Message}
    (hm : f m = false) : (eraseFirst Q m).filter f = Q.filter f := by
  induction Q with
  | nil => simp [eraseFirst]
  | cons x xs ih =>
    by_cases hx : x = m
    · rw [eraseFirst, if_pos hx, List.filter_cons_of_neg (by simp [hx, hm])]
    · rw [eraseFirst, if_neg hx]
      by_cases hf : f x = true
      · rw [List.filter_cons_of_pos hf, List.filter_cons_of_pos hf, ih]
      · rw [List.filter_cons_of_neg (by simpa using hf),
            List.filter_cons_of_neg (by simpa using hf), ih]

theorem popLoop_spec (n : Nat) :
    ∀ (b : MessageBuffer) (acc : List Message), n ≤ b.messageQueue.length →
    (popLoop b acc n).2 = acc ++ b.messageQueue.take n ∧
    (popLoop b acc n).1.messageQueue = b.messageQueue.drop n ∧
    (popLoop b acc n).1.running = b.running ∧
    (popLoop b acc n).1.totalMessages = b.totalMessages ∧
    (popLoop b acc n).1.maxQueueSize = b.maxQueueSize := by
  induction n with
  | zero => intro b acc _; simp [popLoop]
  | succ n ih =>
    intro b acc h
    match hq : b.messageQueue with
    | [] => rw [hq] at h; simp at h
    | m :: rest =>
      rw [hq] at h
      have h' : n ≤ rest.length := Nat.succ_le_succ_iff.mp (by simpa using h)
      have := ih { b with messageQueue := rest,
                          topicQueues := topicPopHead b.topicQueues m.topic }
                 (acc ++ [m]) h'
      simp only [popLoop, hq]
      simpa [List.append_assoc] using this

theorem popMessages_spec (b : MessageBuffer) (acc : List Message) (k : Nat) :
    (popMessages b acc k).2.1 = acc ++ b.messageQueue.take (min k b.messageQueue.length) ∧
    (popMessages b acc k).1.messageQueue = b.messageQueue.drop (min k b.messageQueue.length) ∧
    (popMessages b acc k).1.running = b.running ∧
    (popMessages b acc k).1.totalMessages = b.totalMessages ∧
    (popMessages b acc k).1.maxQueueSize = b.maxQueueSize ∧
    (b.messageQueue = [] → popMessages b acc k = (b, acc, false)) ∧
    (b.messageQueue ≠ [] →
      (popMessages b acc k).2.2 = !(popMessages b acc k).2.1.isEmpty) := by
  by_cases hq : b.messageQueue = []
  · simp [popMessages, hq]
  · have hmin : min k b.messageQueue.length ≤ b.messageQueue.length := Nat.min_le_right _ _
    have hs := popLoop_spec (min k b.messageQueue.length) b acc hmin
    have hne : b.messageQueue.isEmpty = false := by
      simpa [List.isEmpty_iff] using hq
    refine ⟨?_, ?_, ?_, ?_, ?_, fun h => absurd h hq, fun _ => ?_⟩
    · simpa only [popMessages, hne, Bool.false_eq_true, if_false] using hs.1
    · simpa only [popMessages, hne, Bool.false_eq_true, if_false] using hs.2.1
    · simpa only [popMessages, hne, Bool.false_eq_true, if_false] using hs.2.2.1
    · simpa only [popMessages, hne, Bool.false_eq_true, if_false] using hs.2.2.2.1
    · simpa only [popMessages, hne, Bool.false_eq_true, if_false] using hs.2.2.2.2
    · simp only [popMessages, hne, Bool.false_eq_true, if_false]

theorem lookupT_topicPush (T : List (String × List Message)) (t : String) (m : Message) :
    lookupT (topicPush T t m) t = some ((lookupT T t).getD [] ++ [m]) := by
  induction T with
  | nil => simp [topicPush, lookupT]
  | cons p rest ih =>
    by_cases hk : p.1 = t <;>
      simp [topicPush, lookupT, hk, ih]

theorem popMessagesByTopic_fields (b : MessageBuffer) (t : String) (k : Nat) :
    (popMessagesByTopic b t k).1.totalMessages = b.totalMessages ∧
    (popMessagesByTopic b t k).1.running = b.running ∧
    (popMessagesByTopic b t k).1.maxQueueSize = b.maxQueueSize := by
  unfold popMessagesByTopic
  cases lookupT b.topicQueues t with
  | none => exact ⟨rfl, rfl, rfl⟩
  | some tq =>
    by_cases hr : b.running = false <;> simp [hr]

theorem BufInv_init (N : Nat) : BufInv (initBuffer N) := by
  refine ⟨?_, ?_, ?_, ?_, ?_⟩ <;> simp [initBuffer]

theorem BufInv_clear {b : MessageBuffer} : BufInv (clearBuffer b) := by
  refine ⟨?_, ?_, ?_, ?_, ?_⟩ <;> simp [clearBuffer]

theorem BufInv_stop {b : MessageBuffer} (hI : BufInv b) : BufInv (stopBuffer b) := hI

theorem BufInv_start {b : MessageBuffer} (hI : BufInv b) : BufInv (startBuffer b) := hI

theorem filter_append_singleton_pos {m : Message} (t : String)
    (h : (m.topic == t) = true) (Q : List Message) :
    (Q ++ [m]).filter (fun x => x.topic == t) = Q.filter (fun x => x.topic == t) ++ [m] := by
  rw [List.filter_append]
  simp [List.filter_singleton, h]

theorem filter_append_singleton_neg {m : Message} (t : String)
    (h : (m.topic == t) = false) (Q : List Message) :
    (Q ++ [m]).filter (fun x => x.topic == t) = Q.filter (fun x => x.topic == t) := by
  rw [List.filter_append]
  simp [List.filter_singleton, h]

theorem BufInv_append_aux {b : MessageBuffer} (hI : BufInv b) (m : Message)
    (hseq : m.sequence_number = b.totalMessages) :
    BufInv { b with messageQueue := b.messageQueue ++ [m],
                    topicQueues := topicPush b.topicQueues m.topic m,
                    totalMessages := b.totalMessages + 1 } := by
  obtain ⟨hnd, hent, hcov, hbnd, hpw⟩ := hI
  refine ⟨?_, ?_, ?_, ?_, ?_⟩
  · show ((topicPush b.topicQueues m.topic m).map Prod.fst).Nodup
    rw [topicPush_keys]
    by_cases ht : m.topic ∈ b.topicQueues.map Prod.fst
    · simpa [ht] using hnd
    · rw [if_neg ht, List.nodup_append]
      refine ⟨hnd, List.nodup_singleton _, ?_⟩
      intro a ha hb
      rw [List.mem_singleton] at hb
      exact ht (hb ▸ ha)
  · intro p hp
    show p.2 = (b.messageQueue ++ [m]).filter (fun x => x.topic == p.1) ∧ p.2 ≠ []
    rcases topicPush_entries hnd p hp with ⟨hne, hpT⟩ | ⟨q, hq, hpe⟩ | ⟨hq, hpe⟩
    · obtain ⟨hq1, hq2⟩ := hent p hpT
      rw [filter_append_singleton_neg p.1
        (by simp only [beq_eq_false_iff_ne]; exact fun hc => hne hc.symm)]
      exact ⟨hq1, hq2⟩
    · have hq1 : q = b.messageQueue.filter (fun x => x.topic == m.topic) :=
        (hent (m.topic, q) (lookupT_mem hq)).1
      rw [hpe]
      refine ⟨?_, by simp⟩
      show q ++ [m] = (b.messageQueue ++ [m]).filter (fun x => x.topic == m.topic)
      rw [filter_append_singleton_pos m.topic (by simp), ← hq1]
    · have hft : b.messageQueue.filter (fun x => x.topic == m.topic) = [] := by
        by_contra hc
        obtain ⟨m', hm'⟩ := List.exists_mem_of_ne_nil _ hc
        have h1 : m' ∈ b.messageQueue := List.mem_of_mem_filter hm'
        have h2 : m'.topic = m.topic := by simpa using List.of_mem_filter hm'
        obtain ⟨q', hq'⟩ := mem_keys_lookupT (h2 ▸ hcov m' h1)
        rw [hq'] at hq
        exact Option.noConfusion hq
      rw [hpe]
      refine ⟨?_, by simp⟩
      show [m] = (b.messageQueue ++ [m]).filter (fun x => x.topic == m.topic)
      rw [filter_append_singleton_pos m.topic (by simp), hft]
      rfl
  · intro m' hm'
    show m'.topic ∈ (topicPush b.topicQueues m.topic m).map Prod.fst
    rw [topicPush_keys]
    by_cases ht : m.topic ∈ b.topicQueues.map Prod.fst
    · rw [if_pos ht]
      rcases List.mem_append.mp hm' with h | h
      · exact hcov m' h
      · rw [List.mem_singleton] at h
        rw [h]
        exact ht
    · rw [if_neg ht]
      rcases List.mem_append.mp hm' with h | h
      · exact List.mem_append.mpr (Or.inl (hcov m' h))
      · rw [List.mem_singleton] at h
        rw [h]
        exact List.mem_append.mpr (Or.inr (by simp))
  · intro m' hm'
    show m'.sequence_number < b.totalMessages + 1
    rcases List.mem_append.mp hm' with h | h
    · exact Nat.lt_succ_of_lt (hbnd m' h)
    · rw [List.mem_singleton] at h
      rw [h, hseq]
      exact Nat.lt_succ_self _
  · show (b.messageQueue ++ [m]).Pairwise (fun x y => x.sequence_number < y.sequence_number)
    rw [List.pairwise_append]
    refine ⟨hpw, List.pairwise_singleton _ _, ?_⟩
    intro a ha b' hb'
    rw [List.mem_singleton] at hb'
    rw [hb', hseq]
    exact hbnd a ha

theorem BufInv_pushAppend {b : MessageBuffer} (hI : BufInv b) (t d : String) (ts : Int) :
    BufInv (pushAppendCore b t d ts).1 :=
  BufInv_append_aux hI
    { topic := t, data := d, timestamp := ts, sequence_number := b.totalMessages } rfl

theorem BufInv_pushSeq {b : MessageBuffer} (hI : BufInv b) (t d : String) (ts : Int) :
    BufInv (pushMessageSeq b t d ts).1 := by
  rw [pushMessageSeq, pushMessage]
  by_cases hr : b.running = false
  · simpa [hr] using hI
  · by_cases hf : b.maxQueueSize ≤ b.messageQueue.length
    · simpa [hr, hf] using hI
    · simpa [hr, hf] using BufInv_pushAppend hI t d ts

theorem BufInv_headPop {b : MessageBuffer} {m : Message} {rest : List Message}
    (hq : b.messageQueue = m :: rest) (hI : BufInv b) :
    BufInv { b with messageQueue := rest, topicQueues := topicPopHead b.topicQueues m.topic } := by
  obtain ⟨hnd, hent, hcov, hbnd, hpw⟩ := hI
  have hkey : m.topic ∈ b.topicQueues.map Prod.fst :=
    hcov m (hq ▸ List.mem_cons_self m rest)
  obtain ⟨q, hlq⟩ := mem_keys_lookupT hkey
  have hqT := lookupT_mem hlq
  obtain ⟨hq1, hq2⟩ := hent (m.topic, q) hqT
  have hq1' : q = b.messageQueue.filter (fun x => x.topic == m.topic) := hq1
  have hqval : q = m :: rest.filter (fun x => x.topic == m.topic) := by
    rw [hq1', hq, List.filter_cons_of_pos (by simp)]
  have heq := topicPopHead_eq hnd (hqval ▸ hqT)
  refine ⟨?_, ?_, ?_, ?_, ?_⟩
  · show ((topicPopHead b.topicQueues m.topic).map Prod.fst).Nodup
    rw [heq]
    by_cases he : (rest.filter (fun x => x.topic == m.topic)).isEmpty
    · rw [if_pos he, topicErase_keys]
      exact hnd.erase _
    · rw [if_neg he, topicUpdate_keys]
      exact hnd
  · intro p hp
    show p.2 = rest.filter (fun x => x.topic == p.1) ∧ p.2 ≠ []
    rw [heq] at hp
    by_cases he : (rest.filter (fun x => x.topic == m.topic)).isEmpty
    · rw [if_pos he] at hp
      obtain ⟨hpT, hpne⟩ := topicErase_mem hnd p hp
      obtain ⟨h1, h2⟩ := hent p hpT
      refine ⟨?_, h2⟩
      rw [h1, hq, List.filter_cons_of_neg
        (by simp only [beq_iff_eq]; exact fun hc => hpne hc.symm)]
    · rw [if_neg he] at hp
      rcases topicUpdate_mem hnd p hp with ⟨hpne, hpT⟩ | hpe
      · obtain ⟨h1, h2⟩ := hent p hpT
        refine ⟨?_, h2⟩
        rw [h1, hq, List.filter_cons_of_neg
          (by simp only [beq_iff_eq]; exact fun hc => hpne hc.symm)]
      · rw [hpe]
        refine ⟨rfl, ?_⟩
        intro hc
        have hc' : rest.filter (fun x => x.topic == m.topic) = [] := hc
        rw [hc'] at he
        simp at he
  · intro m' hm'
    show m'.topic ∈ (topicPopHead b.topicQueues m.topic).map Prod.fst
    have hm'Q : m' ∈ b.messageQueue := hq ▸ List.mem_cons_of_mem m hm'
    have hk' := hcov m' hm'Q
    rw [heq]
    by_cases he : (rest.filter (fun x => x.topic == m.topic)).isEmpty
    · rw [if_pos he, topicErase_keys]
      have hne : m'.topic ≠ m.topic := by
        intro hc
        have : m' ∈ rest.filter (fun x => x.topic == m.topic) :=
          List.mem_filter.mpr ⟨hm', by simp [hc]⟩
        rw [List.isEmpty_iff.mp he] at this
        simp at this
      exact (List.mem_erase_of_ne hne).mpr hk'
    · rw [if_neg he, topicUpdate_keys]
      exact hk'
  · intro m' hm'
    exact hbnd m' (hq ▸ List.mem_cons_of_mem m hm')
  · have := hq ▸ hpw
    exact (List.pairwise_cons.mp this).2

theorem BufInv_popLoop (n : Nat) :
    ∀ (b : MessageBuffer) (acc : List Message), BufInv b → BufInv (popLoop b acc n).1 := by
  induction n with
  | zero => intro b acc hI; exact hI
  | succ n ih =>
    intro b acc hI
    match hq : b.messageQueue with
    | [] =>
      simp only [popLoop, hq]
      exact hI
    | m :: rest =>
      simp only [popLoop, hq]
      exact ih _ _ (by
        have := BufInv_headPop hq hI
        simpa [hq] using this)

theorem BufInv_popMessages {b : MessageBuffer} (acc : List Message) (k : Nat)
    (hI : BufInv b) : BufInv (popMessages b acc k).1 := by
  rw [popMessages]
  by_cases hq : b.messageQueue.isEmpty
  · simpa [hq] using hI
  · simp only [hq, Bool.false_eq_true, if_false]
    exact BufInv_popLoop _ b acc hI

theorem popByTopicLoop_spec (t : String) :
    ∀ (n : Nat) (Q tq acc : List Message),
    tq = Q.filter (fun x => x.topic == t) → n ≤ tq.length →
    (popByTopicLoop Q tq acc n).2.2 = acc ++ tq.take n ∧
    (popByTopicLoop Q tq acc n).2.1 = tq.drop n ∧
    (popByTopicLoop Q tq acc n).1.filter (fun x => x.topic == t) = tq.drop n ∧
    (∀ f : Message → Bool, (∀ x, x.topic = t → f x = false) →
      (popByTopicLoop Q tq acc n).1.filter f = Q.filter f) ∧
    (popByTopicLoop Q tq acc n).1.Sublist Q ∧
    (popByTopicLoop Q tq acc n).1.length + n = Q.length := by
  intro n
  induction n with
  | zero =>
    intro Q tq acc hfil _
    refine ⟨?_, ?_, ?_, ?_, ?_, ?_⟩ <;> simp [popByTopicLoop, hfil]
  | succ n ih =>
    intro Q tq acc hfil hn
    match htq : tq with
    | [] => simp at hn
    | m :: restq =>
      have hmf : m ∈ Q.filter (fun x => x.topic == t) := hfil ▸ List.mem_cons_self m restq
      have hmQ : m ∈ Q := List.mem_of_mem_filter hmf
      have hmt : m.topic = t := by simpa using List.of_mem_filter hmf
      have hrest : restq = (eraseFirst Q m).filter (fun x => x.topic == t) :=
        (eraseFirst_filter_pos hfil.symm).symm
      have hn' : n ≤ restq.length := Nat.succ_le_succ_iff.mp (by simpa using hn)
      obtain ⟨h1, h2, h3, h4, h5, h6⟩ := ih (eraseFirst Q m) restq (acc ++ [m]) hrest hn'
      refine ⟨?_, ?_, ?_, ?_, ?_, ?_⟩
      · simp only [popByTopicLoop]
        rw [h1]
        simp
      · simp only [popByTopicLoop]
        rw [h2]
        simp
      · simp only [popByTopicLoop]
        rw [h3]
        simp
      · intro f hf
        simp only [popByTopicLoop]
        rw [h4 f hf]
        exact eraseFirst_filter_neg (hf m hmt)
      · simp only [popByTopicLoop]
        exact h5.trans (eraseFirst_sublist Q m)
      · simp only [popByTopicLoop]
        have := eraseFirst_length hmQ
        omega

theorem popMessagesByTopic_none {b : MessageBuffer} {t : String} (k : Nat)
    (h : lookupT b.topicQueues t = none) : popMessagesByTopic b t k = (b, []) := by
  unfold popMessagesByTopic
  rw [h]

theorem popMessagesByTopic_stopped {b : MessageBuffer} {t : String} {tq : List Message}
    (k : Nat) (h : lookupT b.topicQueues t = some tq) (hr : b.running = false) :
    popMessagesByTopic b t k = (b, []) := by
  unfold popMessagesByTopic
  simp only [h]
  simp [hr]

theorem popMessagesByTopic_running {b : MessageBuffer} {t : String} {tq : List Message}
    (k : Nat) (h : lookupT b.topicQueues t = some tq) (hr : b.running = true) :
    popMessagesByTopic b t k =
      ({ b with
          messageQueue := (popByTopicLoop b.messageQueue tq [] (min k tq.length)).1,
          topicQueues :=
            if (popByTopicLoop b.messageQueue tq [] (min k tq.length)).2.1.isEmpty then
              topicErase b.topicQueues t
            else topicUpdate b.topicQueues t
              (popByTopicLoop b.messageQueue tq [] (min k tq.length)).2.1 },
       (popByTopicLoop b.messageQueue tq [] (min k tq.length)).2.2) := by
  unfold popMessagesByTopic
  simp only [h]
  rw [if_neg (by simp [hr])]

theorem BufInv_popByTopic {b : MessageBuffer} (t : String) (k : Nat) (hI : BufInv b) :
    BufInv (popMessagesByTopic b t k).1 := by
  cases hlk : lookupT b.topicQueues t with
  | none =>
    rw [popMessagesByTopic_none k hlk]
    exact hI
  | some tq =>
    by_cases hr : b.running = false
    · rw [popMessagesByTopic_stopped k hlk hr]
      exact hI
    · have hr' : b.running = true := by
        cases hb : b.running
        · exact absurd hb hr
        · rfl
      rw [popMessagesByTopic_running k hlk hr']
      obtain ⟨hnd, hent, hcov, hbnd, hpw⟩ := hI
      have hqT := lookupT_mem hlk
      have hfil : tq = b.messageQueue.filter (fun x => x.topic == t) := (hent (t, tq) hqT).1
      obtain ⟨h1, h2, h3, h4, h5, h6⟩ :=
        popByTopicLoop_spec t (min k tq.length) b.messageQueue tq [] hfil
          (Nat.min_le_right _ _)
      refine ⟨?_, ?_, ?_, ?_, ?_⟩
      · show ((if _ then topicErase b.topicQueues t
              else topicUpdate b.topicQueues t _).map Prod.fst).Nodup
        split
        · rw [topicErase_keys]
          exact hnd.erase _
        · rw [topicUpdate_keys]
          exact hnd
      · intro p hp
        show p.2 = (popByTopicLoop b.messageQueue tq []
            (min k tq.length)).1.filter (fun x => x.topic == p.1) ∧ p.2 ≠ []
        by_cases he : (popByTopicLoop b.messageQueue tq [] (min k tq.length)).2.1.isEmpty
        · rw [if_pos he] at hp
          obtain ⟨hpT, hpne⟩ := topicErase_mem hnd p hp
          obtain ⟨hpf, hpne2⟩ := hent p hpT
          refine ⟨?_, hpne2⟩
          rw [hpf, h4 (fun x => x.topic == p.1)]
          intro x hx
          simp only [beq_eq_false_iff_ne, hx]
          exact fun hc => hpne hc.symm
        · rw [if_neg he] at hp
          rcases topicUpdate_mem hnd p hp with ⟨hpne, hpT⟩ | hpe
          · obtain ⟨hpf, hpne2⟩ := hent p hpT
            refine ⟨?_, hpne2⟩
            rw [hpf, h4 (fun x => x.topic == p.1)]
            intro x hx
            simp only [beq_eq_false_iff_ne, hx]
            exact fun hc => hpne hc.symm
          · rw [hpe]
            refine ⟨?_, ?_⟩
            · show (popByTopicLoop b.messageQueue tq [] (min k tq.length)).2.1 =
                (popByTopicLoop b.messageQueue tq []
                  (min k tq.length)).1.filter (fun x => x.topic == t)
              rw [h2, h3]
            · intro hc
              have hc' : (popByTopicLoop b.messageQueue tq [] (min k tq.length)).2.1 = [] := hc
              rw [hc'] at he
              simp at he
      · intro m' hm'
        have hm'Q : m' ∈ b.messageQueue := h5.mem hm'
        have hk' := hcov m' hm'Q
        show m'.topic ∈ (if _ then topicErase b.topicQueues t
            else topicUpdate b.topicQueues t _).map Prod.fst
        by_cases hmt : m'.topic = t
        · have hmem : m' ∈ (popByTopicLoop b.messageQueue tq []
              (min k tq.length)).1.filter (fun x => x.topic == t) :=
            List.mem_filter.mpr ⟨hm', by simp [hmt]⟩
          rw [h3] at hmem
          have hne : ((popByTopicLoop b.messageQueue tq [] (min k tq.length)).2.1).isEmpty = false := by
            rw [h2]
            cases hdrop : tq.drop (min k tq.length) with
            | nil => rw [hdrop] at hmem; simp at hmem
            | cons a l => rfl
          rw [if_neg (by simp [hne]), topicUpdate_keys]
          exact hk'
        · split
          · rw [topicErase_keys]
            exact (List.mem_erase_of_ne hmt).mpr hk'
          · rw [topicUpdate_keys]
            exact hk'
      · intro m' hm'
        exact hbnd m' (h5.mem hm')
      · exact hpw.sublist h5

theorem BufInv_runSeqs (ops : List BufOp) :
    ∀ (b : MessageBuffer) (acks : List Nat), BufInv b → BufInv (runSeqs b acks ops).1 := by
  induction ops with
  | nil => intro b acks h; exact h
  | cons op rest ih =>
    intro b acks h
    cases op with
    | push t d ts => exact ih _ _ (BufInv_pushSeq h t d ts)
    | pop k => exact ih _ _ (BufInv_popMessages [] k h)
    | popByTopic t k => exact ih _ _ (BufInv_popByTopic t k h)
    | clear => exact ih _ _ BufInv_clear
    | stop => exact ih _ _ (BufInv_stop h)
    | start => exact ih _ _ (BufInv_start h)

theorem sum_map_add {α : Type} (l : List α) (f g : α → Nat) :
    (l.map (fun x => f x + g x)).sum = (l.map f).sum + (l.map g).sum := by
  induction l with
  | nil => simp
  | cons a l ih =>
    simp only [List.map_cons, List.sum_cons, ih]
    omega

theorem indicator_sum_zero {x : String} {l : List String} (h : x ∉ l) :
    (l.map (fun tt => if x = tt then 1 else 0)).sum = 0 := by
  induction l with
  | nil => simp
  | cons a l ih =>
    rw [List.mem_cons, not_or] at h
    simp only [List.map_cons, List.sum_cons, if_neg h.1, ih h.2]

theorem indicator_sum_one {x : String} {l : List String} (hnd : l.Nodup) (h : x ∈ l) :
    (l.map (fun tt => if x = tt then 1 else 0)).sum = 1 := by
  induction l with
  | nil => simp at h
  | cons a l ih =>
    rw [List.nodup_cons] at hnd
    rcases List.mem_cons.mp h with h1 | h1
    · rw [← h1] at hnd
      rw [List.map_cons, List.sum_cons, if_pos h1, indicator_sum_zero hnd.1]
    · have hxa : ¬ x = a := fun hc => hnd.1 (hc ▸ h1)
      rw [List.map_cons, List.sum_cons, if_neg hxa, ih hnd.2 h1]

theorem sum_filter_lengths (Q : List Message) :
    ∀ (keys : List String), keys.Nodup → (∀ m ∈ Q, m.topic ∈ keys) →
    (keys.map (fun tt => (Q.filter (fun x => x.topic == tt)).length)).sum = Q.length := by
  induction Q with
  | nil =>
    intro keys _ _
    have : keys.map (fun tt => (([] : List Message).filter (fun x => x.topic == tt)).length) =
        keys.map (fun _ => 0) := by simp
    rw [this]
    simp
  | cons m Qr ih =>
    intro keys hnd hcov
    have hcov' : ∀ x ∈ Qr, x.topic ∈ keys := fun x hx => hcov x (List.mem_cons_of_mem _ hx)
    have hm := hcov m (List.mem_cons_self _ _)
    have hmap : keys.map (fun tt => ((m :: Qr).filter (fun x => x.topic == tt)).length) =
        keys.map (fun tt =>
          (if m.topic = tt then 1 else 0) + (Qr.filter (fun x => x.topic == tt)).length) := by
      apply List.map_congr_left
      intro tt _
      by_cases hmt : m.topic = tt
      · rw [@List.filter_cons_of_pos _ (fun x => x.topic == tt) m Qr (by simp [hmt]),
            if_pos hmt]
        simp only [List.length_cons]
        omega
      · rw [@List.filter_cons_of_neg _ (fun x => x.topic == tt) m Qr (by simp [hmt]),
            if_neg hmt]
        simp
    rw [hmap, sum_map_add, indicator_sum_one hnd hm, ih keys hnd hcov']
    simp [Nat.add_comm]

theorem sum_entry_lengths {b : MessageBuffer} (hI : BufInv b) :
    (b.topicQueues.map (fun p => p.2.length)).sum = b.messageQueue.length := by
  obtain ⟨hnd, hent, hcov, _, _⟩ := hI
  have hmap : b.topicQueues.map (fun p => p.2.length) =
      b.topicQueues.map (fun p =>
        (b.messageQueue.filter (fun x => x.topic == p.1)).length) := by
    apply List.map_congr_left
    intro p hp
    rw [(hent p hp).1]
  have hcomp : b.topicQueues.map (fun p =>
        (b.messageQueue.filter (fun x => x.topic == p.1)).length) =
      (b.topicQueues.map Prod.fst).map
        (fun tt => (b.messageQueue.filter (fun x => x.topic == tt)).length) := by
    rw [List.map_map]
    rfl
  rw [hmap, hcomp]
  exact sum_filter_lengths b.messageQueue _ hnd hcov

/-- C2.  The buffer index invariant: in every state reachable from the
freshly-constructed buffer by any sequence of `PushMessage`,
`PopMessages`, `PopMessagesByTopic`, `Clear` (and `Start`/`Stop`)
operations, every record of the main queue is present in its topic's
sub-queue, and the length of the main queue equals the sum of the
lengths of all per-topic sub-queues. -/
theorem buffer_index_invariant (N : Nat) (ops : List BufOp) :
    (∀ m ∈ (runOps (initBuffer N) ops).messageQueue,
        m ∈ topicQueueOf (runOps (initBuffer N) ops) m.topic) ∧
    (runOps (initBuffer N) ops).messageQueue.length =
      ((runOps (initBuffer N) ops).topicQueues.map (fun p => p.2.length)).sum := by
  have hI : BufInv (runOps (initBuffer N) ops) :=
    BufInv_runSeqs ops (initBuffer N) [] (BufInv_init N)
  refine ⟨?_, (sum_entry_lengths hI).symm⟩
  intro m hm
  obtain ⟨q, hq⟩ := mem_keys_lookupT (hI.2.2.1 m hm)
  have hfil : q = (runOps (initBuffer N) ops).messageQueue.filter
      (fun x => x.topic == m.topic) :=
    (hI.2.1 (m.topic, q) (lookupT_mem hq)).1
  show m ∈ (lookupT (runOps (initBuffer N) ops).topicQueues m.topic).getD []
  rw [hq]
  show m ∈ q
  rw [hfil]
  exact List.mem_filter.mpr ⟨hm, by simp⟩

/-- C7 (amended).  `PopMessagesByTopic` mirrors `PopMessages` only while
the buffer is running: it then removes the first `min(k, |T[topic]|)`
records from the head of `T[topic]`, unlinks exactly those from the main
queue (leaving every other topic's records untouched), and returns them.
When the buffer has been stopped, however, the guard
`it == end || !m_running` makes it return an empty batch and leave the
buffer unchanged even though records of that topic remain buffered —
unlike `Pop`, which still drains a non-empty queue after shutdown. -/
theorem popByTopic_semantics (b : MessageBuffer) (t : String) (k : Nat)
    (tq : List Message)
    (hlook : lookupT b.topicQueues t = some tq)
    (hfil : tq = b.messageQueue.filter (fun x => x.topic == t)) :
    (b.running = false → popMessagesByTopic b t k = (b, [])) ∧
    (b.running = true →
      (popMessagesByTopic b t k).2 = tq.take (min k tq.length) ∧
      (popMessagesByTopic b t k).1.messageQueue.filter (fun x => x.topic == t) =
        tq.drop (min k tq.length) ∧
      (∀ s, s ≠ t →
        (popMessagesByTopic b t k).1.messageQueue.filter (fun x => x.topic == s) =
          b.messageQueue.filter (fun x => x.topic == s)) ∧
      (popMessagesByTopic b t k).1.messageQueue.length + min k tq.length =
        b.messageQueue.length) := by
  obtain ⟨h1, h2, h3, h4, h5, h6⟩ :=
    popByTopicLoop_spec t (min k tq.length) b.messageQueue tq [] hfil
      (Nat.min_le_right _ _)
  constructor
  · intro hr
    exact popMessagesByTopic_stopped k hlook hr
  · intro hr
    rw [popMessagesByTopic_running k hlook hr]
    refine ⟨by rw [h1]; simp, h3, ?_, h6⟩
    intro s hs
    apply h4
    intro x hx
    simp only [beq_eq_false_iff_ne, hx]
    exact Ne.symm hs

theorem popByTopic_semantics_witness :
    (lookupT (pushMessageSeq (pushMessageSeq (initBuffer 10) "a" "x" 1).1 "b" "y" 2).1.topicQueues "a" =
        some [demoMsgA]) ∧
    ((pushMessageSeq (pushMessageSeq (initBuffer 10) "a" "x" 1).1 "b" "y" 2).1.running = true →
      (popMessagesByTopic (pushMessageSeq (pushMessageSeq (initBuffer 10) "a" "x" 1).1 "b" "y" 2).1 "a" 5).2 =
        [demoMsgA].take (min 5 [demoMsgA].length) ∧
      (popMessagesByTopic (pushMessageSeq (pushMessageSeq (initBuffer 10) "a" "x" 1).1 "b" "y" 2).1 "a" 5).1.messageQueue.filter
          (fun x => x.topic == "a") =
        [demoMsgA].drop (min 5 [demoMsgA].length) ∧
      (∀ s, s ≠ "a" →
        (popMessagesByTopic (pushMessageSeq (pushMessageSeq (initBuffer 10) "a" "x" 1).1 "b" "y" 2).1 "a" 5).1.messageQueue.filter
            (fun x => x.topic == s) =
          (pushMessageSeq (pushMessageSeq (initBuffer 10) "a" "x" 1).1 "b" "y" 2).1.messageQueue.filter
            (fun x => x.topic == s)) ∧
      (popMessagesByTopic (pushMessageSeq (pushMessageSeq (initBuffer 10) "a" "x" 1).1 "b" "y" 2).1 "a" 5).1.messageQueue.length +
          min 5 [demoMsgA].length =
        (pushMessageSeq (pushMessageSeq (initBuffer 10) "a" "x" 1).1 "b" "y" 2).1.messageQueue.length) :=
  ⟨by decide,
   (popByTopic_semantics (pushMessageSeq (pushMessageSeq (initBuffer 10) "a" "x" 1).1 "b" "y" 2).1
      "a" 5 [demoMsgA] (by decide) (by decide)).2⟩

/-- C10.  Counterexample to the claim as stated: with a non-empty input
vector and an empty queue, `PopMessages` hits the early
`if (m_messageQueue.empty()) return false;` and returns false even
though the vector is non-empty after the call. -/
theorem popMessages_nonEmptyVector_counterexample :
    (popMessages (initBuffer 5)
        [{ topic := "t", data := "x", timestamp := 0, sequence_number := 0 }] 3).2.2 = false ∧
    ([{ topic := "t", data := "x", timestamp := 0, sequence_number := 0 }] : List Message) ≠ [] := by
  exact ⟨rfl, by simp⟩

/-- C10 (amended).  `PopMessages` never clears the caller's vector: the
drained records (the first `min(max_batch, |Q|)` elements of `Q`) are
appended after the existing elements.  When the queue is non-empty the
boolean result is `!messages.empty()` computed on the vector after the
call, so a call with a non-empty input vector returns true even when zero
records were drained (`max_batch_size = 0`); but when the queue is empty
the call returns false regardless of the vector's contents. -/
theorem popMessages_append_semantics (b : MessageBuffer) (acc : List Message) (k : Nat) :
    ((popMessages b acc k).2.1 = acc ++ b.messageQueue.take (min k b.messageQueue.length)) ∧
    (b.messageQueue ≠ [] →
      (popMessages b acc k).2.2 = !(popMessages b acc k).2.1.isEmpty) ∧
    (b.messageQueue ≠ [] → acc ≠ [] → (popMessages b acc k).2.2 = true) ∧
    (b.messageQueue = [] → popMessages b acc k = (b, acc, false)) := by
  obtain ⟨h1, _, _, _, _, h6, h7⟩ := popMessages_spec b acc k
  refine ⟨h1, h7, ?_, h6⟩
  intro hq hacc
  rw [h7 hq, h1]
  cases acc with
  | nil => exact absurd rfl hacc
  | cons a l => simp

theorem popMessages_append_semantics_witness :
    ((initBuffer 4).messageQueue = ([] : List Message)) ∧
    popMessages (initBuffer 4)
        [{ topic := "t", data := "x", timestamp := 0, sequence_number := 0 }] 0 =
      (initBuffer 4, [{ topic := "t", data := "x", timestamp := 0, sequence_number := 0 }], false) :=
  ⟨rfl, (popMessages_append_semantics (initBuffer 4)
      [{ topic := "t", data := "x", timestamp := 0, sequence_number := 0 }] 0).2.2.2 rfl⟩

/-- C3.  Push failure semantics of `MessageBuffer::PushMessage`: when the
buffer is not running the call returns false with the state unchanged;
when the queue is full the call returns false if the 100 ms wait timed
out, and returns false if the buffer was shut down while it was blocked;
otherwise (directly, or after being woken with space while still running)
it appends exactly one new record — sequence number `m_totalMessages` —
to both the main queue and `T[topic]`, and returns true.  `bWake` is the
state observed when the wait ends; `timedOut` is whether `wait_for`
returned false. -/
theorem pushMessage_semantics (b bWake : MessageBuffer) (timedOut : Bool)
    (t d : String) (ts : Int) :
    (b.running = false → pushMessage b bWake timedOut t d ts = (b, false)) ∧
    (b.running = true → b.maxQueueSize ≤ b.messageQueue.length → timedOut = true →
      pushMessage b bWake timedOut t d ts = (bWake, false)) ∧
    (b.running = true → b.maxQueueSize ≤ b.messageQueue.length → timedOut = false →
      bWake.running = false → pushMessage b bWake timedOut t d ts = (bWake, false)) ∧
    (b.running = true → b.messageQueue.length < b.maxQueueSize →
      (pushMessage b bWake timedOut t d ts).2 = true ∧
      (pushMessage b bWake timedOut t d ts).1.messageQueue =
        b.messageQueue ++
          [{ topic := t, data := d, timestamp := ts, sequence_number := b.totalMessages }] ∧
      topicQueueOf (pushMessage b bWake timedOut t d ts).1 t =
        topicQueueOf b t ++
          [{ topic := t, data := d, timestamp := ts, sequence_number := b.totalMessages }]) ∧
    (b.running = true → b.maxQueueSize ≤ b.messageQueue.length → timedOut = false →
      bWake.running = true →
      (pushMessage b bWake timedOut t d ts).2 = true ∧
      (pushMessage b bWake timedOut t d ts).1.messageQueue =
        bWake.messageQueue ++
          [{ topic := t, data := d, timestamp := ts, sequence_number := bWake.totalMessages }] ∧
      topicQueueOf (pushMessage b bWake timedOut t d ts).1 t =
        topicQueueOf bWake t ++
          [{ topic := t, data := d, timestamp := ts, sequence_number := bWake.totalMessages }]) := by
  refine ⟨?_, ?_, ?_, ?_, ?_⟩
  · intro hr; simp [pushMessage, hr]
  · intro hr hf ht; simp [pushMessage, hr, hf, ht]
  · intro hr hf ht hw; simp [pushMessage, hr, hf, ht, hw]
  · intro hr hf
    have hnf : ¬ b.maxQueueSize ≤ b.messageQueue.length := Nat.not_le_of_lt hf
    refine ⟨by simp [pushMessage, hr, hnf, pushAppendCore], by simp [pushMessage, hr, hnf, pushAppendCore], ?_⟩
    simp [pushMessage, hr, hnf, pushAppendCore, topicQueueOf, lookupT_topicPush]
  · intro hr hf ht hw
    refine ⟨by simp [pushMessage, hr, hf, ht, hw, pushAppendCore], by simp [pushMessage, hr, hf, ht, hw, pushAppendCore], ?_⟩
    simp [pushMessage, hr, hf, ht, hw, pushAppendCore, topicQueueOf, lookupT_topicPush]

/-- C4.  Counterexample to the claim as stated: push one message (it gets
sequence 0), then apply the buffer effect of `Recorder::Start`
(`m_buffer->Clear()` + `m_buffer->Start()`; the recorder also zeroes its
own `m_totalMessages`, but the buffer's `m_totalMessages` — the sequence
source — is untouched).  The first push of the new run is assigned
sequence 1, not 0. -/
theorem sequence_restart_counterexample :
    ((pushMessageSeq (recorderStartOnBuffer (pushMessageSeq (initBuffer 10) "t" "a" 1).1)
        "t" "b" 2).1.messageQueue.map Message.sequence_number) = [1] ∧ (1 : Nat) ≠ 0 := by
  exact ⟨rfl, by decide⟩

theorem runSeqs_acks (ops : List BufOp) :
    ∀ (b : MessageBuffer) (acks : List Nat), acks = List.range b.totalMessages →
    (runSeqs b acks ops).2 = List.range (runSeqs b acks ops).1.totalMessages := by
  induction ops with
  | nil => intro b acks h; simpa using h
  | cons op rest ih =>
    intro b acks h
    cases op with
    | push t d ts =>
      by_cases hr : b.running = false
      · simpa [runSeqs, pushMessageSeq, pushMessage, hr] using ih b acks h
      · by_cases hf : b.maxQueueSize ≤ b.messageQueue.length
        · simpa [runSeqs, pushMessageSeq, pushMessage, hr, hf] using ih b acks h
        · have : acks ++ [b.totalMessages] = List.range (b.totalMessages + 1) := by
            rw [h, List.range_succ]
          simp only [runSeqs, pushMessageSeq, pushMessage, hr, hf]
          simpa [pushMessage, hr, hf, pushAppendCore] using
            ih _ (acks ++ [b.totalMessages]) (by simpa [pushAppendCore] using this)
    | pop k =>
      have ht := (popMessages_spec b [] k).2.2.2.1
      exact ih _ acks (by rw [ht]; exact h)
    | popByTopic t k =>
      have ht := (popMessagesByTopic_fields b t k).1
      exact ih _ acks (by rw [ht]; exact h)
    | clear => exact ih _ acks h
    | stop => exact ih _ acks h
    | start => exact ih _ acks h

/-- C4 (amended).  Over the whole lifetime of one buffer (hence one
recorder instance), the sequence numbers acknowledged to successful
pushes are exactly `0, 1, 2, …` in push order — strictly increasing and
starting at 0 — across any interleaving of pushes, pops and clears.
`Recorder::Start` clears the buffered messages but does not reset the
buffer's `m_totalMessages`, so the sequence numbers of a second run
continue from the previous run's count instead of restarting at 0
(see the counterexample). -/
theorem sequence_monotone_from_zero (N : Nat) (ops : List BufOp) :
    (runSeqs (initBuffer N) [] ops).2 =
      List.range (runSeqs (initBuffer N) [] ops).1.totalMessages :=
  runSeqs_acks ops (initBuffer N) [] (by simp [initBuffer])

/-- C8.  Counterexample to the claim as stated: a replayed record whose
bus publish returns false still increments `m_playedMessages` — the
return value of `Publish` is discarded at player.hpp line 344 and the
counter is incremented unconditionally on line 347; nothing is logged. -/
theorem publish_failure_counterexample :
    (playLoop (fun _ => 1)
        [{ hasSchema := true, schemaEncoding := "protobuf", logTime := 0,
           channelTopic := some "t", publisherExists := true,
           publishOk := false }]).1.playedMessages = 1 ∧
    ¬ (playLoop (fun _ => 1)
        [{ hasSchema := true, schemaEncoding := "protobuf", logTime := 0,
           channelTopic := some "t", publisherExists := true,
           publishOk := false }]).1.playedMessages = 0 := by
  constructor
  · rfl
  · intro h
    rw [show (playLoop (fun _ => 1)
        [{ hasSchema := true, schemaEncoding := "protobuf", logTime := 0,
           channelTopic := some "t", publisherExists := true,
           publishOk := false }]).1.playedMessages = 1 from rfl] at h
    exact Nat.one_ne_zero h

theorem playLoopAux_played (rates : Nat → ℚ) :
    ∀ (recs : List PlayRecord) (i : Nat) (s : PlayState),
    (playLoopAux rates i s recs).1.playedMessages =
      s.playedMessages + (recs.filter reachesPublish).length := by
  intro recs
  induction recs with
  | nil => intro i s; simp [playLoopAux]
  | cons r rest ih =>
    intro i s
    simp only [playLoopAux]
    by_cases hp : r.hasSchema = true ∧ r.schemaEncoding = "protobuf"
    · match hct : r.channelTopic with
      | none =>
        have hfil : reachesPublish r = false := by
          simp [reachesPublish, hct]
        simp [playStep, hp, hct, ih, hfil, List.filter]
      | some tp =>
        by_cases hpe : r.publisherExists = true
        · have hfil : reachesPublish r = true := by
            simp [reachesPublish, hct, hpe, hp.1, hp.2]
          simp only [playStep, hp, not_true_eq_false, if_false, hct, hpe, if_true]
          rw [ih]
          simp [List.filter, hfil]
          omega
        · have hfil : reachesPublish r = false := by
            simp [reachesPublish, hpe]
          simp [playStep, hp, hct, hpe, ih, hfil, List.filter]
    · have hfil : reachesPublish r = false := by
        rcases not_and_or.mp hp with h | h
        · simp [reachesPublish, Bool.eq_false_iff.mpr h]
        · simp [reachesPublish, h]
      simp [playStep, hp, ih, hfil, List.filter]

/-- C8 (amended).  During replay, `m_playedMessages` counts every record
that reaches the `Publish` call (protobuf-encoded, topic resolved, a
publisher exists) regardless of what `Publish` returns: the boolean
result of the bus publish is discarded, no failure is logged, and
playback continues.  In particular the count is independent of the
per-record publish outcomes. -/
theorem playedMessages_counts_reaching_publish (rates : Nat → ℚ)
    (records : List PlayRecord) :
    (playLoop rates records).1.playedMessages =
      (records.filter reachesPublish).length := by
  simpa [initPlayState] using playLoopAux_played rates records 0 initPlayState

theorem playStep_passes (rate : ℚ) (s : PlayState) (r : PlayRecord)
    (h : r.hasSchema = true ∧ r.schemaEncoding = "protobuf") :
    (playStep rate s r).2 = interDelayMs rate s.firstMessage s.lastTimestamp r.logTime ∧
    (playStep rate s r).1.firstMessage = false ∧
    (playStep rate s r).1.lastTimestamp = r.logTime := by
  unfold playStep
  rw [if_neg (not_not_intro h)]
  cases hct : r.channelTopic with
  | none => exact ⟨rfl, rfl, rfl⟩
  | some tp => by_cases hpe : r.publisherExists = true <;> simp [hpe]

theorem playLoopAux_delays (rates : Nat → ℚ) :
    ∀ (recs : List PlayRecord) (i : Nat) (s : PlayState),
    (∀ r ∈ recs, r.hasSchema = true ∧ r.schemaEncoding = "protobuf") →
    (playLoopAux rates i s recs).2.length = recs.length ∧
    ∀ j, (playLoopAux rates i s recs).2.get? j =
      (recs.get? j).map (fun r =>
        interDelayMs (rates (i + j))
          (if j = 0 then s.firstMessage else false)
          (if j = 0 then s.lastTimestamp
           else ((recs.get? (j - 1)).map PlayRecord.logTime).getD 0)
          r.logTime) := by
  intro recs
  induction recs with
  | nil => intro i s _; simp [playLoopAux]
  | cons r rest ih =>
    intro i s hall
    have hr := hall r (List.mem_cons_self r rest)
    have hrest : ∀ x ∈ rest, x.hasSchema = true ∧ x.schemaEncoding = "protobuf" :=
      fun x hx => hall x (List.mem_cons_of_mem r hx)
    obtain ⟨hd, hf, hl⟩ := playStep_passes (rates i) s r hr
    obtain ⟨ihlen, ihget⟩ := ih (i + 1) (playStep (rates i) s r).1 hrest
    constructor
    · simp [playLoopAux, ihlen]
    · intro j
      match j with
      | 0 => simp [playLoopAux, hd]
      | j + 1 =>
        have harith : i + 1 + j = i + (j + 1) := by omega
        have hg := ihget j
        rw [harith, hf, hl] at hg
        simp only [playLoopAux, List.get?_cons_succ]
        rw [hg]
        cases j with
        | zero => simp
        | succ j => simp

/-- C6.  Playback-rate semantics of `Player::PlayLoop` over a protobuf
record stream: the first record is published without sleeping; for every
later record, with the rate `r` read from the config in that iteration,
the loop sleeps `(log-time delta in ns) / 1e6 / r` milliseconds
(truncated; nothing when the delta is not positive) — so rate 0 gives no
inter-record sleep, a doubled rate halves delays, and a rate change takes
effect on the next inter-record delay because the rate is re-read per
iteration.  `SetPlaybackRate` clamps a negative rate to 1.0. -/
theorem playback_rate_semantics (rates : Nat → ℚ) (records : List PlayRecord)
    (hall : ∀ r ∈ records, r.hasSchema = true ∧ r.schemaEncoding = "protobuf") :
    (∀ rate : ℚ, rate < 0 → setPlaybackRate rate = 1) ∧
    (playLoop rates records).2.length = records.length ∧
    ((playLoop rates records).2.get? 0 = (records.get? 0).map (fun _ => 0)) ∧
    (∀ i, ∀ h : i + 1 < records.length,
      (playLoop rates records).2.get? (i + 1) =
        some (if 0 < rates (i + 1) ∧
                 0 < (records.get ⟨i + 1, h⟩).logTime -
                     (records.get ⟨i, Nat.lt_of_succ_lt h⟩).logTime
              then ⌊(((records.get ⟨i + 1, h⟩).logTime -
                      (records.get ⟨i, Nat.lt_of_succ_lt h⟩).logTime : Int) : ℚ) / 1000000 /
                     rates (i + 1)⌋
              else 0)) := by
  obtain ⟨hlen, hget⟩ := playLoopAux_delays rates records 0 initPlayState hall
  refine ⟨?_, hlen, ?_, ?_⟩
  · intro rate h
    simp [setPlaybackRate, le_of_lt h]
  · have h0 := hget 0
    rw [playLoop, h0]
    cases records.get? 0 <;> simp [interDelayMs, initPlayState]
  · intro i h
    have hi := hget (i + 1)
    rw [playLoop, hi]
    have h1 : records.get? (i + 1) = some (records.get ⟨i + 1, h⟩) := List.get?_eq_get h
    have h2 : records.get? i = some (records.get ⟨i, Nat.lt_of_succ_lt h⟩) :=
      List.get?_eq_get (Nat.lt_of_succ_lt h)
    rw [h1]
    simp only [Nat.add_eq, Nat.succ_sub_one, h2, Option.map_some, Option.getD_some,
      Nat.zero_add, Option.map]
    simp [interDelayMs]

theorem playback_rate_semantics_witness :
    (∀ r ∈ demoPlayRecords, r.hasSchema = true ∧ r.schemaEncoding = "protobuf") ∧
    ((∀ rate : ℚ, rate < 0 → setPlaybackRate rate = 1) ∧
     (playLoop (fun _ => 2) demoPlayRecords).2.length = demoPlayRecords.length ∧
     ((playLoop (fun _ => 2) demoPlayRecords).2.get? 0 =
       (demoPlayRecords.get? 0).map (fun _ => 0)) ∧
     (∀ i, ∀ h : i + 1 < demoPlayRecords.length,
       (playLoop (fun _ => 2) demoPlayRecords).2.get? (i + 1) =
         some (if 0 < (fun _ => (2 : ℚ)) (i + 1) ∧
                  0 < (demoPlayRecords.get ⟨i + 1, h⟩).logTime -
                      (demoPlayRecords.get ⟨i, Nat.lt_of_succ_lt h⟩).logTime
               then ⌊(((demoPlayRecords.get ⟨i + 1, h⟩).logTime -
                       (demoPlayRecords.get ⟨i, Nat.lt_of_succ_lt h⟩).logTime : Int) : ℚ) /
                      1000000 / (fun _ => (2 : ℚ)) (i + 1)⌋
               else 0))) :=
  ⟨by decide, playback_rate_semantics (fun _ => 2) demoPlayRecords (by decide)⟩

/-- C7.  Counterexample to the claim as stated: stop a buffer holding one
record of topic "a"; `T["a"]` is non-empty, yet `PopMessagesByTopic`
returns an empty batch (the guard `it == end || !m_running` fires) and
leaves the buffer unchanged, whereas `PopMessages` would still drain the
record after shutdown. -/
theorem popByTopic_stopped_counterexample :
    topicQueueOf (stopBuffer (pushMessageSeq (initBuffer 10) "a" "x" 1).1) "a" ≠ [] ∧
    popMessagesByTopic (stopBuffer (pushMessageSeq (initBuffer 10) "a" "x" 1).1) "a" 1 =
      (stopBuffer (pushMessageSeq (initBuffer 10) "a" "x" 1).1, []) := by
  constructor
  · decide
  · decide

theorem recRun_writes (evts : List RecEvent) :
    ∀ (b : MessageBuffer) (w : List Message),
    (recRun (b, w) evts).2 ++ (recRun (b, w) evts).1.messageQueue =
      w ++ b.messageQueue ++ ackedOf b evts := by
  induction evts with
  | nil => intro b w; simp [recRun, ackedOf]
  | cons e rest ih =>
    intro b w
    cases e with
    | push t d ts =>
      by_cases hr : b.running = false
      · simpa [recRun, ackedOf, pushMessageSeq, pushMessage, hr] using ih b w
      · by_cases hf : b.maxQueueSize ≤ b.messageQueue.length
        · simpa [recRun, ackedOf, pushMessageSeq, pushMessage, hr, hf] using ih b w
        · have := ih (pushMessageSeq b t d ts).1 w
          simp only [recRun, ackedOf]
          rw [this]
          simp [pushMessageSeq, pushMessage, hr, hf, pushAppendCore]
    | drain k =>
      have hs := popMessages_spec b [] k
      have := ih (popMessages b [] k).1 (w ++ (popMessages b [] k).2.1)
      simp only [recRun, ackedOf]
      rw [this, hs.1, hs.2.1]
      simp [List.take_append_drop]

theorem writeLoopStopped_spec (b : MessageBuffer) (w : List Message) :
    (writeLoopStopped b w).1.messageQueue = [] ∧
    (writeLoopStopped b w).2 = w ++ b.messageQueue := by
  unfold writeLoopStopped
  by_cases hq : b.messageQueue = []
  · simp [writeLoopStoppedAux, hq]
  · have hs := popMessages_spec b [] b.messageQueue.length
    have hq2 : (popMessages b [] b.messageQueue.length).1.messageQueue = [] := by
      rw [hs.2.1]; simp
    have hb2 : (popMessages b [] b.messageQueue.length).2.1 = b.messageQueue := by
      rw [hs.1]; simp
    match hl : b.messageQueue.length with
    | 0 => exact absurd (List.length_eq_zero.mp hl) hq
    | n + 1 =>
      simp only [writeLoopStoppedAux, hq, if_false]
      simp [hq2, hb2]

/-- C1.  Drain-to-completion on `Stop`: for any serialised trace of
producer pushes and writer-loop drains during the run, once `Stop` flips
`m_running` the writer loop (`while running || Size > 0`, batch size
`Size()` when stopped) keeps popping until the buffer is empty, and the
records handed to the storage writer are then exactly the records
`PushMessage` acknowledged with success, in order.  (The file is closed
by `Stop` only after this loop is joined.) -/
theorem drain_to_completion (N : Nat) (evts : List RecEvent) :
    (writeLoopStopped (recRun (recorderStartOnBuffer (initBuffer N), []) evts).1
        (recRun (recorderStartOnBuffer (initBuffer N), []) evts).2).1.messageQueue = [] ∧
    (writeLoopStopped (recRun (recorderStartOnBuffer (initBuffer N), []) evts).1
        (recRun (recorderStartOnBuffer (initBuffer N), []) evts).2).2 =
      ackedOf (recorderStartOnBuffer (initBuffer N)) evts := by
  obtain ⟨h1, h2⟩ := writeLoopStopped_spec
    (recRun (recorderStartOnBuffer (initBuffer N), []) evts).1
    (recRun (recorderStartOnBuffer (initBuffer N), []) evts).2
  have h3 := recRun_writes evts (recorderStartOnBuffer (initBuffer N)) []
  refine ⟨h1, ?_⟩
  rw [h2, h3]
  simp [recorderStartOnBuffer, clearBuffer, startBuffer, initBuffer]

theorem writerClose_closed (w : List LogFile) : ∀ g ∈ writerClose w, g.isOpen = false := by
  intro g hg
  rw [writerClose] at hg
  obtain ⟨g0, _, hg0⟩ := List.mem_map.mp hg
  rw [← hg0]

theorem openFiles_shape {wc : List LogFile} {f : LogFile}
    (hwc : ∀ g ∈ wc, g.isOpen = false) (hf : f.isOpen = true) :
    openFiles (wc ++ [f]) = [f] := by
  rw [openFiles, List.filter_append]
  have h1 : wc.filter (fun g => g.isOpen) = [] := by
    rw [List.filter_eq_nil_iff]
    intro g hg
    rw [hwc g hg]
    simp
  rw [h1]
  simp [hf]

theorem writerAddSchema_shape1 {wc : List LogFile} {f : LogFile}
    (hwc : ∀ g ∈ wc, g.isOpen = false) (hf : f.isOpen = true) (n e : String) :
    (writerAddSchema (wc ++ [f]) n e).1 =
      wc ++ [{ f with schemas := f.schemas ++
        [{ id := f.schemas.length + 1, name := n, encoding := e }] }] := by
  induction wc with
  | nil => simp [writerAddSchema, hf]
  | cons g rest ih =>
    have hg := hwc g (List.mem_cons_self _ _)
    simp only [List.cons_append, writerAddSchema, hg, Bool.false_eq_true, if_false]
    exact congrArg (List.cons g) (ih (fun x hx => hwc x (List.mem_cons_of_mem _ hx)))

theorem writerAddSchema_shape2 {wc : List LogFile} {f : LogFile}
    (hwc : ∀ g ∈ wc, g.isOpen = false) (hf : f.isOpen = true) (n e : String) :
    (writerAddSchema (wc ++ [f]) n e).2 = f.schemas.length + 1 := by
  induction wc with
  | nil => simp [writerAddSchema, hf]
  | cons g rest ih =>
    have hg := hwc g (List.mem_cons_self _ _)
    simp only [List.cons_append, writerAddSchema, hg, Bool.false_eq_true, if_false]
    exact ih (fun x hx => hwc x (List.mem_cons_of_mem _ hx))

theorem writerAddChannel_shape1 {wc : List LogFile} {f : LogFile}
    (hwc : ∀ g ∈ wc, g.isOpen = false) (hf : f.isOpen = true)
    (tp e : String) (sid : Nat) (mt : String) :
    (writerAddChannel (wc ++ [f]) tp e sid mt).1 =
      wc ++ [{ f with channels := f.channels ++
        [{ id := f.channels.length + 1, topic := tp, messageEncoding := e,
           schemaId := sid, messageType := mt }] }] := by
  induction wc with
  | nil => simp [writerAddChannel, hf]
  | cons g rest ih =>
    have hg := hwc g (List.mem_cons_self _ _)
    simp only [List.cons_append, writerAddChannel, hg, Bool.false_eq_true, if_false]
    exact congrArg (List.cons g) (ih (fun x hx => hwc x (List.mem_cons_of_mem _ hx)))

theorem writerAddChannel_shape2 {wc : List LogFile} {f : LogFile}
    (hwc : ∀ g ∈ wc, g.isOpen = false) (hf : f.isOpen = true)
    (tp e : String) (sid : Nat) (mt : String) :
    (writerAddChannel (wc ++ [f]) tp e sid mt).2 = f.channels.length + 1 := by
  induction wc with
  | nil => simp [writerAddChannel, hf]
  | cons g rest ih =>
    have hg := hwc g (List.mem_cons_self _ _)
    simp only [List.cons_append, writerAddChannel, hg, Bool.false_eq_true, if_false]
    exact ih (fun x hx => hwc x (List.mem_cons_of_mem _ hx))

theorem topicInfosLookup_set_self (L : List (String × TopicInfoM)) (t : String)
    (v : TopicInfoM) : topicInfosLookup (topicInfosSet L t v) t = some v := by
  induction L with
  | nil => simp [topicInfosSet, topicInfosLookup]
  | cons p rest ih =>
    by_cases hk : p.1 = t
    · rw [topicInfosSet, if_pos hk, topicInfosLookup, if_pos hk]
    · rw [topicInfosSet, if_neg hk, topicInfosLookup, if_neg hk]
      exact ih

theorem topicInfosLookup_set_other (L : List (String × TopicInfoM)) {s t : String}
    (hst : s ≠ t) (v : TopicInfoM) :
    topicInfosLookup (topicInfosSet L t v) s = topicInfosLookup L s := by
  induction L with
  | nil =>
    rw [topicInfosSet, topicInfosLookup, topicInfosLookup, if_neg (fun hc => hst hc.symm),
      topicInfosLookup]
  | cons p rest ih =>
    by_cases hk : p.1 = t
    · have hps : ¬ p.1 = s := fun hc => hst (hk ▸ hc).symm
      rw [topicInfosSet, if_pos hk]
      rw [topicInfosLookup, if_neg hps]
      rw [topicInfosLookup, if_neg hps]
    · rw [topicInfosSet, if_neg hk]
      rw [topicInfosLookup]
      rw [topicInfosLookup]
      by_cases hp : p.1 = s
      · rw [if_pos hp, if_pos hp]
      · rw [if_neg hp, if_neg hp]
        exact ih

theorem registerTopicImpl_shape {st : StorageState} {wc : List LogFile} {f : LogFile}
    (hw : st.writer = wc ++ [f]) (hwc : ∀ g ∈ wc, g.isOpen = false)
    (hf : f.isOpen = true) (info : TopicInfoM) (hmem : info.proto_type ∈ st.pool) :
    registerTopicImpl st info =
      ({ st with
          writer := wc ++ [{ f with
            schemas := f.schemas ++
              [{ id := f.schemas.length + 1, name := info.proto_type,
                 encoding := "protobuf" }],
            channels := f.channels ++
              [{ id := f.channels.length + 1, topic := info.topic_name,
                 messageEncoding := "protobuf", schemaId := f.schemas.length + 1,
                 messageType := info.proto_type }] }],
          topicInfos := topicInfosSet st.topicInfos info.topic_name
            { info with schema_id := f.schemas.length + 1,
                        channel_id := f.channels.length + 1 } }, true) := by
  have hf1 : ({ f with schemas := f.schemas ++
      [{ id := f.schemas.length + 1, name := info.proto_type,
         encoding := "protobuf" }] } : LogFile).isOpen = true := hf
  have hs1 := writerAddSchema_shape1 hwc hf info.proto_type "protobuf"
  have hs2 := writerAddSchema_shape2 hwc hf info.proto_type "protobuf"
  have hc1 := writerAddChannel_shape1 hwc hf1 info.topic_name "protobuf"
    (f.schemas.length + 1) info.proto_type
  have hc2 := writerAddChannel_shape2 hwc hf1 info.topic_name "protobuf"
    (f.schemas.length + 1) info.proto_type
  unfold registerTopicImpl
  rw [if_pos hmem, hw]
  simp only [hs1, hs2, hc1, hc2]

theorem registerFold_spec :
    ∀ (entries : List (String × TopicInfoM)) (st : StorageState)
      (wc : List LogFile) (f : LogFile),
    st.writer = wc ++ [f] → (∀ g ∈ wc, g.isOpen = false) → f.isOpen = true →
    (∀ p ∈ entries, p.2.proto_type ∈ st.pool) →
    (entries.map (fun p => p.2.topic_name)).Nodup →
    ∃ ff : LogFile,
      (entries.foldl (fun acc p => (registerTopicImpl acc p.2).1) st).writer = wc ++ [ff] ∧
      ff.isOpen = true ∧ ff.filename = f.filename ∧
      (∃ ex, ff.schemas = f.schemas ++ ex) ∧
      (∃ ex, ff.channels = f.channels ++ ex) ∧
      (entries.foldl (fun acc p => (registerTopicImpl acc p.2).1) st).pool = st.pool ∧
      (entries.foldl (fun acc p => (registerTopicImpl acc p.2).1) st).cfg = st.cfg ∧
      (entries.foldl (fun acc p => (registerTopicImpl acc p.2).1) st).fileInfo = st.fileInfo ∧
      (∀ t, t ∉ entries.map (fun p => p.2.topic_name) →
        topicInfosLookup
          (entries.foldl (fun acc p => (registerTopicImpl acc p.2).1) st).topicInfos t =
          topicInfosLookup st.topicInfos t) ∧
      (∀ p ∈ entries, ∃ info s c,
        topicInfosLookup
          (entries.foldl (fun acc p => (registerTopicImpl acc p.2).1) st).topicInfos
            p.2.topic_name = some info ∧
        s ∈ ff.schemas ∧ s.name = p.2.proto_type ∧ info.schema_id = s.id ∧
        c ∈ ff.channels ∧ c.topic = p.2.topic_name ∧ c.schemaId = s.id ∧
        info.channel_id = c.id) := by
  intro entries
  induction entries with
  | nil =>
    intro st wc f hw hwc hf _ _
    exact ⟨f, hw, hf, rfl, ⟨[], by simp⟩, ⟨[], by simp⟩, rfl, rfl, rfl,
      fun t _ => rfl, by simp⟩
  | cons p rest ih =>
    intro st wc f hw hwc hf hpool hkeys
    rw [List.map_cons, List.nodup_cons] at hkeys
    have hreg := registerTopicImpl_shape hw hwc hf p.2 (hpool p (List.mem_cons_self _ _))
    have hst2 : (registerTopicImpl st p.2).1 =
        { st with
          writer := wc ++ [{ f with
            schemas := f.schemas ++
              [{ id := f.schemas.length + 1, name := p.2.proto_type,
                 encoding := "protobuf" }],
            channels := f.channels ++
              [{ id := f.channels.length + 1, topic := p.2.topic_name,
                 messageEncoding := "protobuf", schemaId := f.schemas.length + 1,
                 messageType := p.2.proto_type }] }],
          topicInfos := topicInfosSet st.topicInfos p.2.topic_name
            { p.2 with schema_id := f.schemas.length + 1,
                       channel_id := f.channels.length + 1 } } := by
      rw [hreg]
    obtain ⟨ff, hfw, hffo, hffn, ⟨ex1, hex1⟩, ⟨ex2, hex2⟩, hfpool, hfcfg, hffi, hfun, hfreg⟩ :=
      ih (registerTopicImpl st p.2).1 wc
        ({ f with
            schemas := f.schemas ++
              [{ id := f.schemas.length + 1, name := p.2.proto_type,
                 encoding := "protobuf" }],
            channels := f.channels ++
              [{ id := f.channels.length + 1, topic := p.2.topic_name,
                 messageEncoding := "protobuf", schemaId := f.schemas.length + 1,
                 messageType := p.2.proto_type }] })
        (by rw [hst2]) hwc hf
        (by
          intro q hq
          rw [hst2]
          exact hpool q (List.mem_cons_of_mem _ hq))
        hkeys.2
    refine ⟨ff, ?_, hffo, ?_, ?_, ?_, ?_, ?_, ?_, ?_, ?_⟩
    · rw [List.foldl_cons]
      exact hfw
    · exact hffn
    · exact ⟨_, by rw [hex1, List.append_assoc]⟩
    · exact ⟨_, by rw [hex2, List.append_assoc]⟩
    · rw [List.foldl_cons, hfpool, hst2]
    · rw [List.foldl_cons, hfcfg, hst2]
    · rw [List.foldl_cons, hffi, hst2]
    · intro t ht
      rw [List.map_cons, List.mem_cons, not_or] at ht
      rw [List.foldl_cons, hfun t ht.2, hst2]
      exact topicInfosLookup_set_other st.topicInfos ht.1 _
    · intro q hq
      rcases List.mem_cons.mp hq with h1 | h1
      · subst h1
        refine ⟨{ q.2 with
            schema_id := f.schemas.length + 1,
            channel_id := f.channels.length + 1 },
          { id := f.schemas.length + 1, name := q.2.proto_type, encoding := "protobuf" },
          { id := f.channels.length + 1, topic := q.2.topic_name,
            messageEncoding := "protobuf", schemaId := f.schemas.length + 1,
            messageType := q.2.proto_type }, ?_, ?_, rfl, rfl, ?_, rfl, rfl, rfl⟩
        · rw [List.foldl_cons, hfun q.2.topic_name hkeys.1, hst2]
          exact topicInfosLookup_set_self st.topicInfos q.2.topic_name _
        · rw [hex1]
          exact List.mem_append.mpr (Or.inl (List.mem_append.mpr (Or.inr (by simp))))
        · rw [hex2]
          exact List.mem_append.mpr (Or.inl (List.mem_append.mpr (Or.inr (by simp))))
      · obtain ⟨info, s, c, hh⟩ := hfreg q h1
        exact ⟨info, s, c, by rw [List.foldl_cons]; exact hh.1, hh.2.1, hh.2.2.1,
          hh.2.2.2.1, hh.2.2.2.2.1, hh.2.2.2.2.2.1, hh.2.2.2.2.2.2.1, hh.2.2.2.2.2.2.2⟩

/-- C5.  Counterexample to the claim as stated: with an empty
`output_path`, `GenFilename` regenerates the fixed, timestamp-free path
`./openbags/<prefix>.<extension>`, so the rotation that a large write
triggers (the writer file count grows by one) reopens the very same
filename instead of a fresh timestamped one. -/
theorem rotation_filename_counterexample :
    demoStorageEmptyPath.cfg.split_by_size = true ∧
    demoStorageEmptyPath.fileInfo.filename = "./openbags/openbag.mcap" ∧
    (writeMessageBatch demoStorageEmptyPath [demoStorageMsg] "2025_01_01-00_00_00").1.writer.length =
      demoStorageEmptyPath.writer.length + 1 ∧
    (writeMessageBatch demoStorageEmptyPath [demoStorageMsg] "2025_01_01-00_00_00").1.fileInfo.filename =
      demoStorageEmptyPath.fileInfo.filename := by
  refine ⟨rfl, by decide, by decide, by decide⟩

/-- C5 (amended).  Whenever `split_by_size` is enabled and the estimated
file size has reached `max_file_size` after a write, the writer closes
the current file, regenerates the filename from the current wall clock —
the timestamped `<dir>/<prefix>_<time>.<ext>` form only when
`output_path` is non-empty; with an empty `output_path` the fixed
timestamp-free `./openbags/<prefix>.<ext>` is reused (see the
counterexample) — opens a new file with the same configuration, and
re-runs `RegisterTopicImpl` for every known topic: the new file contains
a schema named by the topic's proto type and a channel for the topic
whose ids are exactly the `schema_id`/`channel_id` stored back into
`m_topicInfos` and referenced by subsequent message records.  At most
one file is open at any moment (the closed files stay closed and exactly
the fresh file is open). -/
theorem rotation_reregistration (st : StorageState) (timeStr : String)
    (hsplit : st.cfg.split_by_size = true)
    (hsize : st.cfg.max_file_size ≤ st.fileInfo.file_size)
    (hpool : ∀ p ∈ st.topicInfos, p.2.proto_type ∈ st.pool)
    (hkeys : (st.topicInfos.map (fun p => p.2.topic_name)).Nodup) :
    ∃ ff : LogFile,
      (trySplitFileIfNeeded st timeStr).writer = writerClose st.writer ++ [ff] ∧
      openFiles (trySplitFileIfNeeded st timeStr).writer = [ff] ∧
      ff.filename = (genFilename st.fileInfo timeStr).filename ∧
      (trySplitFileIfNeeded st timeStr).fileInfo.filename =
        (genFilename st.fileInfo timeStr).filename ∧
      (trySplitFileIfNeeded st timeStr).fileInfo.file_size = 0 ∧
      (trySplitFileIfNeeded st timeStr).fileInfo.is_open = true ∧
      (trySplitFileIfNeeded st timeStr).cfg = st.cfg ∧
      (st.fileInfo.output_path ≠ "" →
        (trySplitFileIfNeeded st timeStr).fileInfo.filename =
          (if st.fileInfo.output_path.back = '/' then st.fileInfo.output_path
           else st.fileInfo.output_path ++ "/") ++
            st.fileInfo.filePrefix ++ "_" ++ timeStr ++ "." ++ st.fileInfo.extension) ∧
      (∀ p ∈ st.topicInfos, ∃ info s c,
        topicInfosLookup (trySplitFileIfNeeded st timeStr).topicInfos p.2.topic_name =
          some info ∧
        s ∈ ff.schemas ∧ s.name = p.2.proto_type ∧ info.schema_id = s.id ∧
        c ∈ ff.channels ∧ c.topic = p.2.topic_name ∧ c.schemaId = s.id ∧
        info.channel_id = c.id) := by
  have htry : trySplitFileIfNeeded st timeStr =
      st.topicInfos.foldl (fun acc p => (registerTopicImpl acc p.2).1)
        { st with
            writer := writerClose st.writer ++
              [{ filename := (genFilename st.fileInfo timeStr).filename, isOpen := true,
                 schemas := [], channels := [], messages := [] }],
            fileInfo := { genFilename st.fileInfo timeStr with
              file_size := 0, is_open := true } } := by
    unfold trySplitFileIfNeeded
    rw [if_pos ⟨hsplit, hsize⟩]
    rfl
  obtain ⟨ff, h1, h2, h3, h4, h5, h6, h7, h8, h9, h10⟩ :=
    registerFold_spec st.topicInfos
      { st with
          writer := writerClose st.writer ++
            [{ filename := (genFilename st.fileInfo timeStr).filename, isOpen := true,
               schemas := [], channels := [], messages := [] }],
          fileInfo := { genFilename st.fileInfo timeStr with
            file_size := 0, is_open := true } }
      (writerClose st.writer)
      { filename := (genFilename st.fileInfo timeStr).filename, isOpen := true,
        schemas := [], channels := [], messages := [] }
      rfl (writerClose_closed st.writer) rfl hpool hkeys
  refine ⟨ff, ?_, ?_, ?_, ?_, ?_, ?_, ?_, ?_, ?_⟩
  · rw [htry]
    exact h1
  · rw [htry, h1]
    exact openFiles_shape (writerClose_closed st.writer) h2
  · exact h3
  · rw [htry, h8]
  · rw [htry, h8]
  · rw [htry, h8]
  · rw [htry, h7]
  · intro hop
    rw [htry, h8]
    show (genFilename st.fileInfo timeStr).filename = _
    unfold genFilename
    rw [if_neg hop]
  · intro p hp
    rw [htry]
    exact h10 p hp

theorem rotation_reregistration_witness :
    (demoStorageOutPath.cfg.split_by_size = true ∧
     demoStorageOutPath.cfg.max_file_size ≤ demoStorageOutPath.fileInfo.file_size ∧
     (∀ p ∈ demoStorageOutPath.topicInfos, p.2.proto_type ∈ demoStorageOutPath.pool) ∧
     (demoStorageOutPath.topicInfos.map (fun p => p.2.topic_name)).Nodup) ∧
    (∃ ff : LogFile,
      (trySplitFileIfNeeded demoStorageOutPath "ts2").writer =
        writerClose demoStorageOutPath.writer ++ [ff] ∧
      openFiles (trySplitFileIfNeeded demoStorageOutPath "ts2").writer = [ff] ∧
      ff.filename = (genFilename demoStorageOutPath.fileInfo "ts2").filename ∧
      (trySplitFileIfNeeded demoStorageOutPath "ts2").fileInfo.filename =
        (genFilename demoStorageOutPath.fileInfo "ts2").filename ∧
      (trySplitFileIfNeeded demoStorageOutPath "ts2").fileInfo.file_size = 0 ∧
      (trySplitFileIfNeeded demoStorageOutPath "ts2").fileInfo.is_open = true ∧
      (trySplitFileIfNeeded demoStorageOutPath "ts2").cfg = demoStorageOutPath.cfg ∧
      (demoStorageOutPath.fileInfo.output_path ≠ "" →
        (trySplitFileIfNeeded demoStorageOutPath "ts2").fileInfo.filename =
          (if demoStorageOutPath.fileInfo.output_path.back = '/' then
             demoStorageOutPath.fileInfo.output_path
           else demoStorageOutPath.fileInfo.output_path ++ "/") ++
            demoStorageOutPath.fileInfo.filePrefix ++ "_" ++ "ts2" ++ "." ++
            demoStorageOutPath.fileInfo.extension) ∧
      (∀ p ∈ demoStorageOutPath.topicInfos, ∃ info s c,
        topicInfosLookup (trySplitFileIfNeeded demoStorageOutPath "ts2").topicInfos
          p.2.topic_name = some info ∧
        s ∈ ff.schemas ∧ s.name = p.2.proto_type ∧ info.schema_id = s.id ∧
        c ∈ ff.channels ∧ c.topic = p.2.topic_name ∧ c.schemaId = s.id ∧
        info.channel_id = c.id)) :=
  ⟨⟨rfl, by decide, by decide, by decide⟩,
   rotation_reregistration demoStorageOutPath "ts2" rfl (by decide) (by decide) (by decide)⟩

theorem lookupFile_name {pool : List FileDesc} {n : String} {fd : FileDesc}
    (h : lookupFile pool n = some fd) : fd.name = n ∧ fd ∈ pool := by
  induction pool with
  | nil => simp [lookupFile] at h
  | cons e rest ih =>
    by_cases he : e.name = n
    · rw [lookupFile, if_pos he] at h
      have : e = fd := Option.some_injective _ h
      exact ⟨this ▸ he, this ▸ List.mem_cons_self _ _⟩
    · rw [lookupFile, if_neg he] at h
      obtain ⟨h1, h2⟩ := ih h
      exact ⟨h1, List.mem_cons_of_mem _ h2⟩

theorem lookupFile_exists {pool : List FileDesc} {n : String}
    (h : n ∈ pool.map FileDesc.name) : ∃ fd, lookupFile pool n = some fd := by
  induction pool with
  | nil => simp at h
  | cons e rest ih =>
    by_cases he : e.name = n
    · exact ⟨e, by rw [lookupFile, if_pos he]⟩
    · rw [List.map_cons, List.mem_cons] at h
      rcases h with h | h
      · exact absurd h.symm he
      · obtain ⟨fd, hfd⟩ := ih h
        exact ⟨fd, by rw [lookupFile, if_neg he]; exact hfd⟩

theorem newDeps_mem :
    ∀ (deps seen : List String) (x : String), x ∈ newDeps deps seen →
      x ∈ deps ∧ x ∉ seen := by
  intro deps
  induction deps with
  | nil => intro seen x hx; simp [newDeps] at hx
  | cons d ds ih =>
    intro seen x hx
    rw [newDeps] at hx
    by_cases hd : d ∈ seen
    · rw [if_pos hd] at hx
      obtain ⟨h1, h2⟩ := ih seen x hx
      exact ⟨List.mem_cons_of_mem _ h1, h2⟩
    · rw [if_neg hd] at hx
      rcases List.mem_cons.mp hx with h | h
      · exact ⟨h ▸ List.mem_cons_self _ _, h ▸ hd⟩
      · obtain ⟨h1, h2⟩ := ih (seen ++ [d]) x h
        refine ⟨List.mem_cons_of_mem _ h1, fun hc => h2 ?_⟩
        exact List.mem_append.mpr (Or.inl hc)

theorem newDeps_complete :
    ∀ (deps seen : List String) (d : String), d ∈ deps →
      d ∈ seen ∨ d ∈ newDeps deps seen := by
  intro deps
  induction deps with
  | nil => intro seen d hd; simp at hd
  | cons e ds ih =>
    intro seen d hd
    rw [newDeps]
    by_cases he : e ∈ seen
    · rw [if_pos he]
      rcases List.mem_cons.mp hd with h | h
      · exact Or.inl (h ▸ he)
      · exact ih seen d h
    · rw [if_neg he]
      rcases List.mem_cons.mp hd with h | h
      · exact Or.inr (h ▸ List.mem_cons_self _ _)
      · rcases ih (seen ++ [e]) d h with h1 | h1
        · rcases List.mem_append.mp h1 with h2 | h2
          · exact Or.inl h2
          · rw [List.mem_singleton] at h2
            exact Or.inr (h2 ▸ List.mem_cons_self _ _)
        · exact Or.inr (List.mem_cons_of_mem _ h1)

theorem newDeps_nodup :
    ∀ (deps seen : List String), seen.Nodup → (seen ++ newDeps deps seen).Nodup := by
  intro deps
  induction deps with
  | nil => intro seen h; simpa [newDeps] using h
  | cons d ds ih =>
    intro seen h
    rw [newDeps]
    by_cases hd : d ∈ seen
    · rw [if_pos hd]
      exact ih seen h
    · rw [if_neg hd]
      have hnd : (seen ++ [d]).Nodup := by
        refine h.append (List.nodup_singleton d) ?_
        intro a ha hb
        rw [List.mem_singleton] at hb
        exact hd (hb ▸ ha)
      have := ih (seen ++ [d]) hnd
      rwa [List.append_assoc] at this

theorem bfsAux_correct (pool : List FileDesc) (root : String)
    (hclosed : ∀ fd ∈ pool, ∀ d ∈ fd.deps, d ∈ pool.map FileDesc.name) :
    ∀ (fuel : Nat) (pending seen out : List String),
    seen.Nodup →
    (∀ x ∈ seen, x ∈ pool.map FileDesc.name) →
    (∀ x ∈ seen, ReachesFile pool root x) →
    root ∈ seen →
    (∀ x, x ∈ seen ↔ x ∈ out ∨ x ∈ pending) →
    (out ++ pending).Nodup →
    (∀ x ∈ out, ∀ fd, lookupFile pool x = some fd → ∀ d ∈ fd.deps, d ∈ seen) →
    pool.length - seen.length + pending.length ≤ fuel →
    ∃ res, bfsAux pool fuel pending seen out = some res ∧ res.Nodup ∧
      (∀ x, x ∈ res ↔ ReachesFile pool root x) := by
  intro fuel
  induction fuel with
  | zero =>
    intro pending seen out hnd hsub hreach hroot hiff hpnd hclo hm
    match pending with
    | [] =>
      refine ⟨out, rfl, by simpa using hpnd, fun x => ⟨?_, ?_⟩⟩
      · intro hx
        exact hreach x ((hiff x).mpr (Or.inl hx))
      · intro hr
        induction hr with
        | refl =>
          rcases (hiff root).mp hroot with h | h
          · exact h
          · simp at h
        | step ha hlk hdep ihr =>
          have hd := hclo _ ihr _ hlk _ hdep
          rcases (hiff _).mp hd with h | h
          · exact h
          · simp at h
    | p :: rest =>
      exfalso
      simp only [List.length_cons] at hm
      omega
  | succ fuel ih =>
    intro pending seen out hnd hsub hreach hroot hiff hpnd hclo hm
    match pending with
    | [] =>
      refine ⟨out, rfl, by simpa using hpnd, fun x => ⟨?_, ?_⟩⟩
      · intro hx
        exact hreach x ((hiff x).mpr (Or.inl hx))
      · intro hr
        induction hr with
        | refl =>
          rcases (hiff root).mp hroot with h | h
          · exact h
          · simp at h
        | step ha hlk hdep ihr =>
          have hd := hclo _ ihr _ hlk _ hdep
          rcases (hiff _).mp hd with h | h
          · exact h
          · simp at h
    | f :: rest =>
      have hfseen : f ∈ seen := (hiff f).mpr (Or.inr (List.mem_cons_self f rest))
      obtain ⟨fd, hfd⟩ := lookupFile_exists (hsub f hfseen)
      obtain ⟨hfdname, hfdpool⟩ := lookupFile_name hfd
      simp only [bfsAux, hfd]
      have hnewsub : ∀ x ∈ newDeps fd.deps seen, x ∈ pool.map FileDesc.name :=
        fun x hx => hclosed fd hfdpool x (newDeps_mem fd.deps seen x hx).1
      have hlen : (seen ++ newDeps fd.deps seen).length ≤ pool.length := by
        have hsub' : (seen ++ newDeps fd.deps seen) ⊆ pool.map FileDesc.name := by
          intro x hx
          rcases List.mem_append.mp hx with h | h
          · exact hsub x h
          · exact hnewsub x h
        have := (List.subperm_of_subset (newDeps_nodup fd.deps seen hnd) hsub').length_le
        simpa using this
      apply ih (rest ++ newDeps fd.deps seen) (seen ++ newDeps fd.deps seen) (out ++ [f])
      · exact newDeps_nodup fd.deps seen hnd
      · intro x hx
        rcases List.mem_append.mp hx with h | h
        · exact hsub x h
        · exact hnewsub x h
      · intro x hx
        rcases List.mem_append.mp hx with h | h
        · exact hreach x h
        · exact ReachesFile.step (hreach f hfseen) hfd (newDeps_mem fd.deps seen x h).1
      · exact List.mem_append.mpr (Or.inl hroot)
      · intro x
        constructor
        · intro hx
          rcases List.mem_append.mp hx with h | h
          · rcases (hiff x).mp h with h1 | h1
            · exact Or.inl (List.mem_append.mpr (Or.inl h1))
            · rcases List.mem_cons.mp h1 with h2 | h2
              · exact Or.inl (List.mem_append.mpr (Or.inr (by simp [h2])))
              · exact Or.inr (List.mem_append.mpr (Or.inl h2))
          · exact Or.inr (List.mem_append.mpr (Or.inr h))
        · intro hx
          rcases hx with h | h
          · rcases List.mem_append.mp h with h1 | h1
            · exact List.mem_append.mpr
                (Or.inl ((hiff x).mpr (Or.inl h1)))
            · rw [List.mem_singleton] at h1
              exact List.mem_append.mpr (Or.inl (h1 ▸ hfseen))
          · rcases List.mem_append.mp h with h1 | h1
            · exact List.mem_append.mpr
                (Or.inl ((hiff x).mpr (Or.inr (List.mem_cons_of_mem _ h1))))
            · exact List.mem_append.mpr (Or.inr h1)
      · have hre : out ++ [f] ++ (rest ++ newDeps fd.deps seen) =
            (out ++ f :: rest) ++ newDeps fd.deps seen := by
          simp
        rw [hre]
        refine hpnd.append (newDeps_nodup fd.deps seen hnd).of_append_right ?_
        intro a ha hb
        have haseen : a ∈ seen := by
          rcases List.mem_append.mp ha with h | h
          · exact (hiff a).mpr (Or.inl h)
          · exact (hiff a).mpr (Or.inr h)
        exact (newDeps_mem fd.deps seen a hb).2 haseen
      · intro x hx fd' hfd' d hd
        rcases List.mem_append.mp hx with h | h
        · exact List.mem_append.mpr (Or.inl (hclo x h fd' hfd' d hd))
        · rw [List.mem_singleton] at h
          rw [h] at hfd'
          rw [hfd'] at hfd
          have : fd = fd' := Option.some_injective _ hfd.symm
          rcases newDeps_complete fd.deps seen d (this ▸ hd) with h1 | h1
          · exact List.mem_append.mpr (Or.inl h1)
          · exact List.mem_append.mpr (Or.inr h1)
      · have h1 : (seen ++ newDeps fd.deps seen).length =
            seen.length + (newDeps fd.deps seen).length := List.length_append _ _
        simp only [List.length_append, List.length_cons] at hm hlen ⊢
        omega

/-- C9.  Descriptor transitive closure: for every non-null message
descriptor whose file lives in a dependency-closed descriptor pool,
`BuildFileDescriptorSet` terminates (the `pool.length` fuel given to the
embedded BFS loop suffices) and returns a set that contains each file
name exactly once, and a name is in the set exactly when it is the
root file or reachable from it through the transitive dependency
graph. -/
theorem build_fds_transitive_closure (pool : List FileDesc) (rootFile : String)
    (hclosed : ∀ fd ∈ pool, ∀ d ∈ fd.deps, d ∈ pool.map FileDesc.name)
    (hroot : rootFile ∈ pool.map FileDesc.name) :
    ∃ res, buildFileDescriptorSet pool (some rootFile) = some res ∧ res.Nodup ∧
      (∀ x, x ∈ res ↔ ReachesFile pool rootFile x) := by
  have hlen : 1 ≤ pool.length := by
    cases pool with
    | nil => simp at hroot
    | cons a l => simp
  apply bfsAux_correct pool rootFile hclosed pool.length [rootFile] [rootFile] []
  · exact List.nodup_singleton _
  · intro x hx
    rw [List.mem_singleton] at hx
    exact hx ▸ hroot
  · intro x hx
    rw [List.mem_singleton] at hx
    exact hx ▸ ReachesFile.refl
  · exact List.mem_singleton.mpr rfl
  · intro x
    simp
  · simp
  · intro x hx
    simp at hx
  · simp only [List.length_singleton]
    omega

theorem build_fds_transitive_closure_witness :
    ((∀ fd ∈ [FileDesc.mk "a.proto" ["b.proto", "c.proto"],
               FileDesc.mk "b.proto" ["c.proto"],
               FileDesc.mk "c.proto" [],
               FileDesc.mk "d.proto" []],
        ∀ d ∈ fd.deps,
          d ∈ [FileDesc.mk "a.proto" ["b.proto", "c.proto"],
               FileDesc.mk "b.proto" ["c.proto"],
               FileDesc.mk "c.proto" [],
               FileDesc.mk "d.proto" []].map FileDesc.name) ∧
      "a.proto" ∈ [FileDesc.mk "a.proto" ["b.proto", "c.proto"],
               FileDesc.mk "b.proto" ["c.proto"],
               FileDesc.mk "c.proto" [],
               FileDesc.mk "d.proto" []].map FileDesc.name) ∧
    (∃ res, buildFileDescriptorSet
        [FileDesc.mk "a.proto" ["b.proto", "c.proto"],
         FileDesc.mk "b.proto" ["c.proto"],
         FileDesc.mk "c.proto" [],
         FileDesc.mk "d.proto" []] (some "a.proto") = some res ∧ res.Nodup ∧
      (∀ x, x ∈ res ↔ ReachesFile
        [FileDesc.mk "a.proto" ["b.proto", "c.proto"],
         FileDesc.mk "b.proto" ["c.proto"],
         FileDesc.mk "c.proto" [],
         FileDesc.mk "d.proto" []] "a.proto" x)) :=
  ⟨⟨by decide, by decide⟩,
   build_fds_transitive_closure _ "a.proto" (by decide) (by decide)⟩

theorem pushMessage_semantics_witness :
    ((initBuffer 3).running = true ∧ (initBuffer 3).messageQueue.length < (initBuffer 3).maxQueueSize) ∧
    ((pushMessageSeq (initBuffer 3) "t" "d" 7).2 = true ∧
     (pushMessageSeq (initBuffer 3) "t" "d" 7).1.messageQueue =
       (initBuffer 3).messageQueue ++
         [{ topic := "t", data := "d", timestamp := 7, sequence_number := (initBuffer 3).totalMessages }] ∧
     topicQueueOf (pushMessageSeq (initBuffer 3) "t" "d" 7).1 "t" =
       topicQueueOf (initBuffer 3) "t" ++
         [{ topic := "t", data := "d", timestamp := 7, sequence_number := (initBuffer 3).totalMessages }]) :=
  ⟨⟨rfl, by decide⟩,
   (pushMessage_semantics (initBuffer 3) (initBuffer 3) true "t" "d" 7).2.2.2.1 rfl (by decide)⟩

end Openbag
